import Mathlib

/-
  Shallow embedding of the rooted-reference allocator of this repository.

  The primary variant (rem_boxroot.c, the "pool with remembered set"
  engine) is modelled in namespace RemBoxroot; the bitmap-chunk variant
  (bitmap_boxroot.c) in namespace BitmapBoxroot.

  Machine words holding OCaml values are modelled by the inductive Val
  (immediate, young block, old block); pointers used by the free-list
  encoding are modelled by Ptr (a slot of the owning pool, the pool base
  address, or NULL).  Pools are addressed by natural-number ids; a handle
  is a pair (pool id, slot index).  External ingredients (the page
  allocator, the remembered set, the minor-collection query) appear as
  explicit state: an oracle list of allocation outcomes, a list of
  remembered slot addresses, and a boolean parameter.
-/

namespace RemBoxroot

/-- Payload word: an immediate, a pointer to a young (nursery) block,
or a pointer to an old (mature) block.  Mirrors the OCaml value word. -/
inductive Val where
  | imm (n : Nat)
  | young (n : Nat)
  | old (n : Nat)
deriving DecidableEq, Repr

/-- Pointer as stored in free-list heads and tagged free-slot links:
either a slot of the owning pool, the pool base address (the empty
free-list marker of empty_free_list), or NULL. -/
inductive Ptr where
  | cell (i : Nat)
  | base
  | null
deriving DecidableEq, Repr

/-- One pool cell: the C union of a full slot (an OCaml value) and a
free slot (a tagged link to the next free slot). -/
inductive Slot where
  | full (v : Val)
  | free (next : Ptr)
deriving DecidableEq, Repr

def Slot.isFree : Slot → Bool
  | .free _ => true
  | .full _ => false

def Slot.isFull : Slot → Bool
  | .free _ => false
  | .full _ => true

/-- POOL_LOG_SIZE parameter of rem_boxroot.c. -/
def POOL_LOG_SIZE : Nat := 14

/-- POOL_SIZE = 1 << POOL_LOG_SIZE. -/
def POOL_SIZE : Nat := 2 ^ POOL_LOG_SIZE

/-- sizeof(struct header) on an LP64 platform: five pointers and an int
with padding. -/
def HEADER_SIZE : Nat := 48

/-- POOL_ROOTS_CAPACITY = (POOL_SIZE - sizeof(struct header)) / sizeof(slot). -/
def CAP : Nat := (POOL_SIZE - HEADER_SIZE) / 8

/-- Threshold POOL_ROOTS_CAPACITY * 3 / 4 used by dealloc_slot and
is_almost_full_pool. -/
def THRESH : Nat := CAP * 3 / 4

/-- is_young_block: Is_block(v) && Is_young(v). -/
def is_young_block : Val → Bool
  | .young _ => true
  | _ => false

/-- Reading a slot as a value for the is_young_block test: a free slot
has its low bit set, so it looks like an immediate and is never young. -/
def Slot.looksYoung : Slot → Bool
  | .full v => is_young_block v
  | .free _ => false

/-- Pool header: the two free-list heads, the stored tail pointer of the
minor free list, and the allocation count.  (The intrusive prev/next ring
links are represented by the ring lists in the global state.) -/
structure Header where
  major_free_list : Ptr
  minor_free_list : Ptr
  last_minor_free_slot : Ptr
  alloc_count : Int
deriving Repr

/-- A pool: header plus the roots array (total function over slot
indices; only indices below CAP are meaningful). -/
structure Pool where
  hd : Header
  roots : Nat → Slot

/-- is_empty_free_list(v, p): the head equals the pool base address. -/
def is_empty_free_list (v : Ptr) : Bool := v = Ptr.base

/-- empty_free_list(p): a pointer to the pool itself. -/
def empty_free_list : Ptr := Ptr.base

/-- is_full_pool: alloc_count == POOL_ROOTS_CAPACITY. -/
def is_full_pool (p : Pool) : Bool := p.hd.alloc_count = (CAP : Int)

/-- is_empty_pool: alloc_count == 0. -/
def is_empty_pool (p : Pool) : Bool := p.hd.alloc_count = 0

/-- free_list_push(s, free_list): s->free = tag(*free_list); *free_list = s. -/
def free_list_push (i : Nat) (fl : Ptr) (roots : Nat → Slot) :
    Ptr × (Nat → Slot) :=
  (Ptr.cell i, Function.update roots i (Slot.free fl))

/-- free_list_pop(free_list): reads the head slot's link and advances the
head.  Returns none on the C undefined-behaviour paths (popping an empty
or corrupted list). -/
def free_list_pop (fl : Ptr) (roots : Nat → Slot) : Option (Nat × Ptr) :=
  match fl with
  | .cell i =>
    match roots i with
    | .free next => some (i, next)
    | .full _ => none
  | _ => none

/-- Loop body of get_empty_pool: push slots CAP-1 down to 0 onto the
major free list.  fill_free n pushes slots n-1, n-2, ..., 0 (in that
order, matching the descending C loop). -/
def fill_free : Nat → Ptr × (Nat → Slot) → Ptr × (Nat → Slot)
  | 0, acc => acc
  | n + 1, acc => fill_free n (free_list_push n acc.1 acc.2)

/-- Freshly initialised pool built by get_empty_pool: empty lists, no
last minor slot, alloc_count 0, and all CAP slots pushed onto the major
free list.  Uninitialised memory beyond the array is modelled as a free
slot with a NULL link (never reached). -/
def pool_new : Pool :=
  let fl := fill_free CAP (empty_free_list, fun _ => Slot.free Ptr.null)
  { hd := { major_free_list := fl.1
            minor_free_list := empty_free_list
            last_minor_free_slot := Ptr.null
            alloc_count := 0 }
    roots := fl.2 }

/-- Statistics counters of rem_boxroot.c that the claims mention (the
purely debug-guarded counters are omitted; BOXROOT_DEBUG is 0). -/
structure Stats where
  minor_collections : Nat
  major_collections : Nat
  total_scanning_work : Nat
  useful_scanning_work : Nat
  total_alloced_pools : Nat
  total_freed_pools : Nat
  live_pools : Nat
  peak_pools : Nat
  ring_operations : Nat
deriving DecidableEq, Repr

def Stats.zero : Stats :=
  { minor_collections := 0, major_collections := 0
    total_scanning_work := 0, useful_scanning_work := 0
    total_alloced_pools := 0, total_freed_pools := 0
    live_pools := 0, peak_pools := 0, ring_operations := 0 }

/-- Global engine state.  heap is the pool memory (by pool id); pools and
full_pools are the two rings as lists (front = ring head); freed records
ids passed to bxr_free_pool; oracle is the page allocator's future
outcomes (empty list means success); rem_set models Add_to_ref_table;
log_count counts the "boxroot is not setup" messages on stderr. -/
structure State where
  heap : Nat → Pool
  pools : List Nat
  full_pools : List Nat
  freed : List Nat
  next_id : Nat
  oracle : List Bool
  setup : Bool
  log_count : Nat
  rem_set : List (Nat × Nat)
  stats : Stats

/-- A handle (rem_boxroot): pool id and slot index of the cell. -/
abbrev Handle := Nat × Nat

/-- ring_push_back of a singleton ring: append at the back; returns the
new ring and the number of ring_link calls performed. -/
def ring_push_back (p : Nat) (target : List Nat) : List Nat × Nat :=
  if target.isEmpty then ([p], 0) else (target ++ [p], 2)

/-- ring_pop: remove and return the ring head; returns the remaining
ring and the number of ring_link calls performed. -/
def ring_pop (target : List Nat) : Option (Nat × List Nat × Nat) :=
  match target with
  | [] => none
  | [p] => some (p, [], 0)
  | p :: rest => some (p, rest, 2)

/-- pool_remove: remove pool p from whichever global ring holds it,
fixing up the ring-head variables.  Returns updated rings plus the
ring_link call count. -/
def pool_remove (p : Nat) (pools full_pools : List Nat) :
    List Nat × List Nat × Nat :=
  if p ∈ pools then
    (pools.erase p, full_pools, if pools = [p] then 0 else 2)
  else if p ∈ full_pools then
    (pools, full_pools.erase p, if full_pools = [p] then 0 else 2)
  else (pools, full_pools, 0)

/-- get_empty_pool: bump live_pools (and peak) before asking the page
allocator; on success initialise a fresh pool and link it to itself.
Returns the new pool id (none on OOM) and the new state. -/
def get_empty_pool (st : State) : Option Nat × State :=
  let live := st.stats.live_pools + 1
  let peak := max st.stats.peak_pools live
  let ok := st.oracle.headD true
  let st := { st with
    oracle := st.oracle.tail
    stats := { st.stats with live_pools := live, peak_pools := peak } }
  if ok then
    let id := st.next_id
    (some id,
     { st with
       heap := Function.update st.heap id pool_new
       next_id := id + 1
       stats := { st.stats with
         total_alloced_pools := st.stats.total_alloced_pools + 1
         ring_operations := st.stats.ring_operations + 1 } })
  else (none, st)

/-- Loop of find_available_pool: while the ring head is full, move it to
the full_pools ring.  Returns the new rings and ring_link call count. -/
def skip_full (heap : Nat → Pool) :
    List Nat → List Nat → Nat → List Nat × List Nat × Nat
  | [], fps, ops => ([], fps, ops)
  | p :: rest, fps, ops =>
    if is_full_pool (heap p) then
      let popops := if rest.isEmpty then 0 else 2
      let pushed := ring_push_back p fps
      skip_full heap rest pushed.1 (ops + popops + pushed.2)
    else (p :: rest, fps, ops)

/-- find_available_pool: skip full pools (moving them to full_pools),
then reuse the ring head or allocate a fresh pool.  Returns none if the
allocation of a new pool failed. -/
def find_available_pool (st : State) : Option Nat × State :=
  let moved := skip_full st.heap st.pools st.full_pools 0
  let st := { st with
    pools := moved.1
    full_pools := moved.2.1
    stats := { st.stats with
      ring_operations := st.stats.ring_operations + moved.2.2 } }
  match st.pools with
  | [] =>
    match get_empty_pool st with
    | (none, st) => (none, st)
    | (some id, st) => (some id, { st with pools := [id] })
  | p :: _ => (some p, st)

/-- remember(dom_st, s): Add_to_ref_table. -/
def remember (s : Handle) (st : State) : State :=
  { st with rem_set := st.rem_set ++ [s] }

/-- Body of alloc_slot once a non-full front pool p is known: bump
alloc_count, then pop from the minor or major free list according to
for_young, remembering the slot when a young payload lands on a major
slot. -/
def alloc_slot_in (for_young : Bool) (p : Nat) (st : State) :
    Option Handle × State :=
  let pl := st.heap p
  let pl := { pl with hd := { pl.hd with alloc_count := pl.hd.alloc_count + 1 } }
  if for_young then
    if ¬ is_empty_free_list pl.hd.minor_free_list then
      match free_list_pop pl.hd.minor_free_list pl.roots with
      | some (i, next) =>
        let pl := { pl with hd := { pl.hd with minor_free_list := next } }
        (some (p, i), { st with heap := Function.update st.heap p pl })
      | none => (none, { st with heap := Function.update st.heap p pl })
    else
      match free_list_pop pl.hd.major_free_list pl.roots with
      | some (i, next) =>
        let pl := { pl with hd := { pl.hd with major_free_list := next } }
        let st := { st with heap := Function.update st.heap p pl }
        (some (p, i), remember (p, i) st)
      | none => (none, { st with heap := Function.update st.heap p pl })
  else
    if ¬ is_empty_free_list pl.hd.major_free_list then
      match free_list_pop pl.hd.major_free_list pl.roots with
      | some (i, next) =>
        let pl := { pl with hd := { pl.hd with major_free_list := next } }
        (some (p, i), { st with heap := Function.update st.heap p pl })
      | none => (none, { st with heap := Function.update st.heap p pl })
    else
      match free_list_pop pl.hd.minor_free_list pl.roots with
      | some (i, next) =>
        let pl := { pl with hd := { pl.hd with minor_free_list := next } }
        (some (p, i), { st with heap := Function.update st.heap p pl })
      | none => (none, { st with heap := Function.update st.heap p pl })

/-- alloc_slot: use the front pool if available and non-full; otherwise
log and fail when not set up, or find an available pool. -/
def alloc_slot (for_young : Bool) (st : State) : Option Handle × State :=
  match st.pools with
  | p :: _ =>
    if is_full_pool (st.heap p) then
      if ¬ st.setup then (none, { st with log_count := st.log_count + 1 })
      else
        match find_available_pool st with
        | (none, st) => (none, st)
        | (some q, st) => alloc_slot_in for_young q st
    else alloc_slot_in for_young p st
  | [] =>
    if ¬ st.setup then (none, { st with log_count := st.log_count + 1 })
    else
      match find_available_pool st with
      | (none, st) => (none, st)
      | (some q, st) => alloc_slot_in for_young q st

/-- rem_boxroot_create: allocate a slot for the payload's generation and
store the payload in the cell. -/
def rem_boxroot_create (init : Val) (st : State) : Option Handle × State :=
  match alloc_slot (is_young_block init) st with
  | (none, st) => (none, st)
  | (some (p, i), st) =>
    let pl := st.heap p
    let pl := { pl with roots := Function.update pl.roots i (Slot.full init) }
    (some (p, i), { st with heap := Function.update st.heap p pl })

/-- dealloc_slot: push the cell back onto the major free list (or the
minor one when the stored payload is young, updating the stored tail
pointer when the minor list was empty), decrement alloc_count, and move
the pool back to the non-full ring when the count drops to the
three-quarters threshold. -/
def dealloc_slot (h : Handle) (st : State) : State :=
  let p := h.1
  let i := h.2
  let pl := st.heap p
  let pl :=
    if ¬ (pl.roots i).looksYoung then
      let pushed := free_list_push i pl.hd.major_free_list pl.roots
      { pl with hd := { pl.hd with major_free_list := pushed.1 }
                roots := pushed.2 }
    else
      let pl :=
        if is_empty_free_list pl.hd.minor_free_list then
          { pl with hd := { pl.hd with last_minor_free_slot := Ptr.cell i } }
        else pl
      let pushed := free_list_push i pl.hd.minor_free_list pl.roots
      { pl with hd := { pl.hd with minor_free_list := pushed.1 }
                roots := pushed.2 }
  let pl := { pl with hd := { pl.hd with alloc_count := pl.hd.alloc_count - 1 } }
  let st := { st with heap := Function.update st.heap p pl }
  if pl.hd.alloc_count = (THRESH : Int) then
    let removed := pool_remove p st.pools st.full_pools
    let pushed := ring_push_back p removed.1
    { st with
      pools := pushed.1
      full_pools := removed.2.1
      stats := { st.stats with
        ring_operations := st.stats.ring_operations + removed.2.2 + pushed.2 } }
  else st

/-- rem_boxroot_delete. -/
def rem_boxroot_delete (h : Handle) (st : State) : State :=
  dealloc_slot h st

/-- rem_boxroot_modify(root, new_value): overwrite the cell in place;
when the new payload is young and the old one was not, add the cell to
the remembered set.  The caller's handle variable is returned unchanged
(the C function never writes through root). -/
def rem_boxroot_modify (root : Handle) (new_value : Val) (st : State) :
    State × Handle :=
  let p := root.1
  let i := root.2
  let pl := st.heap p
  if ¬ is_young_block new_value then
    let pl := { pl with roots := Function.update pl.roots i (Slot.full new_value) }
    ({ st with heap := Function.update st.heap p pl }, root)
  else
    let old_value := pl.roots i
    let pl := { pl with roots := Function.update pl.roots i (Slot.full new_value) }
    let st := { st with heap := Function.update st.heap p pl }
    if ¬ old_value.looksYoung then (remember root st, root)
    else (st, root)

/-- Major-collection walk of scan_pool: visit slots in address order,
using the remaining-allocations counter for early exit, applying the
scanning action to every full slot.  k counts the slots left to examine;
idx is the current index.  Returns the rewritten roots, the list of
visited (scanned) slot indices in order, and the total_scanning_work
contribution. -/
def scan_walk (action : Val → Val) (roots : Nat → Slot) :
    Nat → Nat → Int → (Nat → Slot) × List Nat × Nat
  | 0, _, _ => (roots, [], CAP)
  | k + 1, idx, rem =>
    if rem = 0 then (roots, [], idx)
    else
      match roots idx with
      | .free _ => scan_walk action roots k (idx + 1) rem
      | .full v =>
        let roots := Function.update roots idx (Slot.full (action v))
        let rest := scan_walk action roots k (idx + 1) (rem - 1)
        (rest.1, idx :: rest.2.1, rest.2.2)

/-- scan_pool: on a minor collection splice the minor free list onto the
head of the major free list through the stored tail pointer and visit no
slot; on a major collection walk the slots applying the action to each
full one.  Returns the new pool, the visited slot indices, the
useful_scanning_work contribution and the total_scanning_work
contribution. -/
def scan_pool (action : Val → Val) (minor : Bool) (pl : Pool) :
    Pool × List Nat × Nat × Nat :=
  if minor then
    if ¬ is_empty_free_list pl.hd.minor_free_list then
      match pl.hd.last_minor_free_slot with
      | Ptr.cell j =>
        let roots := Function.update pl.roots j (Slot.free pl.hd.major_free_list)
        ({ pl with
           hd := { pl.hd with
             major_free_list := pl.hd.minor_free_list
             minor_free_list := empty_free_list }
           roots := roots }, [], 0, 0)
      | _ => (pl, [], 0, 0)
    else (pl, [], 0, 0)
  else
    let useful := pl.hd.alloc_count.toNat
    let walk := scan_walk action pl.roots CAP 0 pl.hd.alloc_count
    ({ pl with roots := walk.1 }, walk.2.1, useful, walk.2.2)

/-- scan_pool_ring: scan every pool of a ring in ring order, threading
the heap and accumulating the visited slots and work counters. -/
def scan_pool_ring (action : Val → Val) (minor : Bool)
    (ring : List Nat) (heap : Nat → Pool) :
    (Nat → Pool) × List (Nat × Nat) × Nat × Nat :=
  match ring with
  | [] => (heap, [], 0, 0)
  | p :: rest =>
    let scanned := scan_pool action minor (heap p)
    let heap := Function.update heap p scanned.1
    let next := scan_pool_ring action minor rest heap
    (next.1, scanned.2.1.map (fun i => (p, i)) ++ next.2.1,
     scanned.2.2.1 + next.2.2.1, scanned.2.2.2 + next.2.2.2)

/-- Walk of free_empty_pools over the pools captured at loop entry:
free every empty pool except the first keep_empty_pools of them. -/
def fep_walk (keep : Nat) (l : List Nat) (st : State) : State :=
  match l with
  | [] => st
  | p :: rest =>
    if is_empty_pool (st.heap p) then
      if 0 < keep then fep_walk (keep - 1) rest st
      else
        let removed := pool_remove p st.pools st.full_pools
        fep_walk keep rest
          { st with
            pools := removed.1
            full_pools := removed.2.1
            freed := st.freed ++ [p]
            stats := { st.stats with
              total_freed_pools := st.stats.total_freed_pools + 1
              ring_operations := st.stats.ring_operations + removed.2.2 } }
    else fep_walk keep rest st

/-- free_empty_pools: iterate once around the non-full ring, keeping one
empty pool.  The C code reads pools->hd.next without a null check: when
the non-full ring is empty it dereferences a null pointer, modelled by
returning none. -/
def free_empty_pools (st : State) : Option State :=
  match st.pools with
  | [] => none
  | ps => some (fep_walk 1 ps st)

/-- scan_roots: scan both rings, then release empty pools. -/
def scan_roots (action : Val → Val) (minor : Bool) (st : State) :
    Option State :=
  let s1 := scan_pool_ring action minor st.pools st.heap
  let s2 := scan_pool_ring action minor st.full_pools s1.1
  let st := { st with
    heap := s2.1
    stats := { st.stats with
      useful_scanning_work :=
        st.stats.useful_scanning_work + s1.2.2.1 + s2.2.2.1
      total_scanning_work :=
        st.stats.total_scanning_work + s1.2.2.2 + s2.2.2.2 } }
  free_empty_pools st

/-- boxroot_used: pools non-null or some ring operation has happened. -/
def boxroot_used (st : State) : Bool :=
  ¬ st.pools.isEmpty ∨ 0 < st.stats.ring_operations

/-- scanning_callback: the hook registered with the runtime.  Returns
none when the call crashes (null dereference in free_empty_pools). -/
def scanning_callback (action : Val → Val) (minor : Bool) (st : State) :
    Option State :=
  if ¬ st.setup then some st
  else
    let st :=
      if minor then
        { st with stats := { st.stats with
            minor_collections := st.stats.minor_collections + 1 } }
      else
        { st with stats := { st.stats with
            major_collections := st.stats.major_collections + 1 } }
    if boxroot_used st then scan_roots action minor st else some st

/-- rem_boxroot_setup: idempotent by flag; resets statistics and rings. -/
def rem_boxroot_setup (st : State) : Bool × State :=
  if st.setup then (false, st)
  else
    (true,
     { st with
       stats := Stats.zero
       pools := []
       full_pools := []
       setup := true })

/-- free_all_pools: pop and free every pool of the non-full ring.  The
full_pools ring is not visited. -/
def free_all_pools_walk (l : List Nat) (st : State) : State :=
  match l with
  | [] => { st with pools := [] }
  | p :: rest =>
    let ops := if rest.isEmpty then 0 else 2
    free_all_pools_walk rest
      { st with
        pools := rest
        freed := st.freed ++ [p]
        stats := { st.stats with
          total_freed_pools := st.stats.total_freed_pools + 1
          ring_operations := st.stats.ring_operations + ops } }

def free_all_pools (st : State) : State :=
  free_all_pools_walk st.pools st

/-- rem_boxroot_teardown: no-op unless set up; clears the flag and frees
the non-full ring. -/
def rem_boxroot_teardown (st : State) : State :=
  if ¬ st.setup then st
  else free_all_pools { st with setup := false }

/-- Process start state: no pool memory touched, statics zero
initialised, page-allocator outcomes given by orc. -/
def init (orc : List Bool) : State :=
  { heap := fun _ => pool_new
    pools := []
    full_pools := []
    freed := []
    next_id := 0
    oracle := orc
    setup := false
    log_count := 0
    rem_set := []
    stats := Stats.zero }

/-- A handle is live when its pool is owned by a ring, its index is in
range and the cell is full. -/
def is_live (st : State) (p i : Nat) : Bool :=
  (p ∈ st.pools ++ st.full_pools) ∧ i < CAP ∧ ((st.heap p).roots i).isFull

/-- API operations used by the reachability traces of the claims. -/
inductive Op where
  | create (v : Val)
  | delete (p i : Nat)
  | modify (p i : Nat) (v : Val)

/-- One API step.  delete and modify are applied only to live handles
(the C contract makes other calls undefined behaviour). -/
def step (st : State) (op : Op) : State :=
  match op with
  | .create v => (rem_boxroot_create v st).2
  | .delete p i => if is_live st p i then rem_boxroot_delete (p, i) st else st
  | .modify p i v =>
    if is_live st p i then (rem_boxroot_modify (p, i) v st).1 else st

def runOps (ops : List Op) (st : State) : State :=
  ops.foldl step st

/-- State after a successful setup from process start. -/
def ready (orc : List Bool) : State := (rem_boxroot_setup (init orc)).2

/-- create over a payload list, collecting the returned handles. -/
def run_creates (vs : List Val) (st : State) : List (Option Handle) × State :=
  match vs with
  | [] => ([], st)
  | v :: rest =>
    let c := rem_boxroot_create v st
    let next := run_creates rest c.2
    (c.1 :: next.1, next.2)

/-- delete over the handles returned by run_creates (null results are
skipped; the C contract forbids deleting null). -/
def run_deletes (hs : List (Option Handle)) (st : State) : State :=
  match hs with
  | [] => st
  | some h :: rest => run_deletes rest (rem_boxroot_delete h st)
  | none :: rest => run_deletes rest st

/-- Free-list chain: Chain roots head l holds when following the tagged
links from head visits exactly the slots of l in order and ends at the
pool base address (the empty-list marker). -/
inductive Chain (roots : Nat → Slot) : Ptr → List Nat → Prop
  | nil : Chain roots Ptr.base []
  | cons {i : Nat} {next : Ptr} {l : List Nat} :
      roots i = Slot.free next → Chain roots next l →
      Chain roots (Ptr.cell i) (i :: l)

/-- Invariant of a single pool: the two free lists chain disjointly
through exactly the free cells below CAP, the allocation count is the
capacity minus the number of free cells, and the stored tail pointer
names the last slot of the minor free list. -/
structure FreeLists (pl : Pool) (l₁ l₂ : List Nat) : Prop where
  chain_major : Chain pl.roots pl.hd.major_free_list l₁
  chain_minor : Chain pl.roots pl.hd.minor_free_list l₂
  nodup : (l₁ ++ l₂).Nodup
  mem_iff : ∀ i, i ∈ l₁ ++ l₂ ↔ i < CAP ∧ (pl.roots i).isFree = true
  alloc_eq : pl.hd.alloc_count = (CAP : Int) - (l₁ ++ l₂).length
  last_eq : ∀ j, l₂.getLast? = some j →
    pl.hd.last_minor_free_slot = Ptr.cell j

def PoolInv (pl : Pool) : Prop := ∃ l₁ l₂, FreeLists pl l₁ l₂

/-- Pools owned by the engine: the two rings. -/
def owned (st : State) : List Nat := st.pools ++ st.full_pools

/-- Global invariant: the rings are duplicate-free, owned pool ids are
below the allocation cursor, and every owned pool satisfies the pool
invariant. -/
structure Inv (st : State) : Prop where
  nodup : (owned st).Nodup
  lt_next : ∀ p ∈ owned st, p < st.next_id
  pool_inv : ∀ p ∈ owned st, PoolInv (st.heap p)

/-- Conclusion of alloc_slot_spec in the success case, abstracted over
the pre-state, the returned handle and the result state. -/
def AllocOk (st : State) (p i : Nat) (st' : State) : Prop :=
  i < CAP ∧
  (owned st').Nodup ∧
  (∀ q ∈ owned st', q < st'.next_id) ∧
  (∀ q ∈ owned st', q ≠ p → PoolInv (st'.heap q)) ∧
  p ∈ owned st' ∧
  (∀ v, PoolInv { st'.heap p with
    roots := Function.update (st'.heap p).roots i (Slot.full v) }) ∧
  (∀ q ∈ owned st, q ∈ owned st') ∧
  (∀ q ∈ owned st, q ≠ p → st'.heap q = st.heap q) ∧
  (p ∈ owned st →
    (st'.heap p).hd.alloc_count = (st.heap p).hd.alloc_count + 1)

/-- Indices of full slots in the address range [idx, idx+k), in address
order. -/
def fulls (roots : Nat → Slot) (idx k : Nat) : List Nat :=
  ((List.range k).map (fun t => idx + t)).filter (fun i => (roots i).isFull)

/-- Iterated rem_boxroot_modify: the C idiom is a sequence of calls
passing the address of the same handle variable. -/
def run_modifies (vs : List Val) (st : State) (root : Handle) : State × Handle :=
  vs.foldl (fun acc v => rem_boxroot_modify acc.2 v acc.1) (st, root)

def Op.isCreateOrDelete : Op → Bool
  | .create _ => true
  | .delete _ _ => true
  | .modify _ _ _ => false

/-- Handle count per pool among the successfully created handles. -/
def countH (hs : List (Option Handle)) (q : Nat) : Nat :=
  (hs.filterMap id).countP (fun h => decide (h.1 = q))

/-- A concrete state with an empty non-full ring, a positive
ring-operation count and the engine set up. -/
def wcrash : State :=
  { (init []) with
    setup := true
    stats := { (init []).stats with ring_operations := 1 } }

/-- A concrete pool with a single free cell (index 5) on the minor free
list and every other cell full. -/
def wpool_minor : Pool :=
  Pool.mk (Header.mk Ptr.base (Ptr.cell 5) (Ptr.cell 5) ((CAP : Int) - 1))
    (fun i => if i = 5 then Slot.free Ptr.base else Slot.full (Val.imm 0))

/-- A concrete full pool: every cell holds an immediate payload. -/
def wpool_full : Pool :=
  Pool.mk (Header.mk Ptr.base Ptr.base Ptr.null (CAP : Int))
    (fun _ => Slot.full (Val.imm 0))

/-- A concrete engine state owning wpool_minor as the sole (non-full)
ring member. -/
def wstate_minor : State :=
  { heap := fun q => if q = 0 then wpool_minor else pool_new
    pools := [0]
    full_pools := []
    freed := []
    next_id := 1
    oracle := []
    setup := true
    log_count := 0
    rem_set := []
    stats := Stats.zero }

/-- A concrete engine state with one pool in each ring. -/
def wstate_rings : State :=
  { heap := fun q => if q = 0 then wpool_full else wpool_minor
    pools := [1]
    full_pools := [0]
    freed := []
    next_id := 2
    oracle := []
    setup := true
    log_count := 0
    rem_set := []
    stats := Stats.zero }

end RemBoxroot

namespace BitmapBoxroot

open RemBoxroot (Val is_young_block)

/-- CHUNK_SIZE = 8 * sizeof(bitmap) on LP64. -/
def CHUNK_SIZE : Nat := 64

/-- BITMAP_EMPTY = ~(bitmap)0: all 64 bits set (every slot free). -/
def BITMAP_EMPTY : Nat := 2 ^ CHUNK_SIZE - 1

/-- count_trailing_zeros (__builtin_ctzl); the argument is nonzero in
every use. -/
def count_trailing_zeros (x : Nat) : Nat :=
  (((List.range CHUNK_SIZE).find? (fun i => x.testBit i)).getD CHUNK_SIZE)

/-- A chunk: the slot array, the generation flag, and the free bitmap
(bit i set means slot i is free).  The intrusive prev/next ring links
are represented by the ring lists of the global state. -/
structure Chunk where
  slot : Nat → Val
  is_young : Bool
  free : Nat

/-- Statistics touched by the modelled code paths (BOXROOT_DEBUG is 0,
so the debug-only counters never change). -/
structure Stats where
  total_alloced_pools : Nat
  total_freed_pools : Nat
  peak_pools : Nat
deriving DecidableEq, Repr

def Stats.zero : Stats :=
  { total_alloced_pools := 0, total_freed_pools := 0, peak_pools := 0 }

/-- Global state of the bitmap engine: chunk memory by id, the young and
old rings (front = ring head), the freed ids, and the allocation
cursor. -/
structure BState where
  heap : Nat → Chunk
  young : List Nat
  old : List Nat
  freed : List Nat
  next_id : Nat
  stats : Stats

/-- ring_push_back(source, target): insert the ring source at the back
of target. -/
def ring_push_back (source target : List Nat) : List Nat :=
  if target.isEmpty then source else target ++ source

/-- chunk_is_full: no free bit left. -/
def chunk_is_full (c : Chunk) : Bool := c.free = 0

/-- create_chunk: allocate a zero-initialised chunk with an all-free
bitmap and is_young = false, updating the pool statistics.  (The
posix_memalign failure path is not exercised by the claims and the
allocation is modelled as succeeding.) -/
def create_chunk (st : BState) : Nat × BState :=
  let id := st.next_id
  let live := st.stats.total_alloced_pools + 1 - st.stats.total_freed_pools
  (id,
   { st with
     heap := Function.update st.heap id
       (Chunk.mk (fun _ => Val.imm 0) false BITMAP_EMPTY)
     next_id := id + 1
     stats := { st.stats with
       total_alloced_pools := st.stats.total_alloced_pools + 1
       peak_pools := max st.stats.peak_pools live } })

/-- ring_remove_chunk: unlink the chunk from whichever ring holds it,
fixing up the ring-head variables. -/
def ring_remove_chunk (c : Nat) (st : BState) : BState :=
  { st with young := st.young.erase c, old := st.old.erase c }

/-- delete_chunk: free(chunk) plus the freed-pool counter. -/
def delete_chunk (c : Nat) (st : BState) : BState :=
  { st with
    freed := st.freed ++ [c]
    stats := { st.stats with
      total_freed_pools := st.stats.total_freed_pools + 1 } }

/-- reclassify_chunk: remove the chunk from its ring, then free it when
empty, push it to the back of its generation's ring when full, and to
the front otherwise. -/
def reclassify_chunk (c : Nat) (st : BState) : BState :=
  let free := (st.heap c).free
  let isy := (st.heap c).is_young
  let st := ring_remove_chunk c st
  if free = BITMAP_EMPTY then delete_chunk c st
  else if free = 0 then
    if isy then { st with young := ring_push_back [c] st.young }
    else { st with old := ring_push_back [c] st.old }
  else
    if isy then { st with young := c :: st.young }
    else { st with old := c :: st.old }

/-- Slow path of get_available_chunk: demote the old ring head when
young is requested and that head is non-full, else create a fresh
chunk; tag it with the requested generation and push it to the front of
the target ring. -/
def gac_slow (young : Bool) (st : BState) : Nat × BState :=
  let picked : Option (Nat × BState) :=
    if young then
      match st.old with
      | c :: rest =>
        if ¬ chunk_is_full (st.heap c) then some (c, { st with old := rest })
        else none
      | [] => none
    else none
  let res :=
    match picked with
    | some pr => pr
    | none => create_chunk st
  let new := res.1
  let st := res.2
  let st := { st with heap := Function.update st.heap new (Chunk.mk (st.heap new).slot young (st.heap new).free) }
  if young then (new, { st with young := new :: st.young })
  else (new, { st with old := new :: st.old })

/-- get_available_chunk: reuse the target ring head if non-full,
otherwise take the slow path. -/
def get_available_chunk (young : Bool) (st : BState) : Nat × BState :=
  let target := if young then st.young else st.old
  match target with
  | new :: _ =>
    if ¬ chunk_is_full (st.heap new) then (new, st) else gac_slow young st
  | [] => gac_slow young st

/-- alloc_from_chunk: take the lowest free slot, store the payload, flip
its free bit, and reclassify the chunk when it just became full.
Returns the root as (chunk id, slot index). -/
def alloc_from_chunk (c : Nat) (init : Val) (st : BState) :
    (Nat × Nat) × BState :=
  let free := (st.heap c).free
  let index := count_trailing_zeros free
  let ch := st.heap c
  let ch := Chunk.mk (Function.update ch.slot index init) ch.is_young ch.free
  let bitmask := 2 ^ index
  let old := ch.free
  let ch := Chunk.mk ch.slot ch.is_young (old ^^^ bitmask)
  let st := { st with heap := Function.update st.heap c ch }
  let is_full := (old ^^^ bitmask) = 0
  ((c, index), if is_full then reclassify_chunk c st else st)

/-- Compile-time configuration: the generational optimisation is on. -/
def ENABLE_BOXROOT_GENERATIONAL : Bool := true

/-- bitmap_boxroot_create.  As in the source, the generation flag is
just ENABLE_BOXROOT_GENERATIONAL — the conjunct is_young_block(init) is
commented out — so every create targets the young ring. -/
def bitmap_boxroot_create (init : Val) (st : BState) :
    (Nat × Nat) × BState :=
  let young := ENABLE_BOXROOT_GENERATIONAL
  let res := get_available_chunk young st
  alloc_from_chunk res.1 init res.2

/-- Allocated slot indices of a chunk (bits cleared in free). -/
def chunk_allocated (ch : Chunk) : List Nat :=
  (List.range CHUNK_SIZE).filter (fun i => ¬ ch.free.testBit i)

/-- The young-ring assertion of validate_all_rings: every allocated slot
of every chunk in the young ring holds a nursery pointer. -/
def validate_young_ring (st : BState) : Bool :=
  st.young.all (fun c => (chunk_allocated (st.heap c)).all
    (fun i => is_young_block ((st.heap c).slot i)))

/-- Apply the scanning action to every allocated slot of a chunk whose
payload satisfies pred (the nursery-range test of scan_ring_young, or
trivially true for scan_ring_gen). -/
def scan_chunk (action : Val → Val) (pred : Val → Bool) (ch : Chunk) :
    Chunk :=
  Chunk.mk
    (fun i =>
      if i < CHUNK_SIZE ∧ ¬ ch.free.testBit i ∧ pred (ch.slot i) then
        action (ch.slot i)
      else ch.slot i)
    ch.is_young ch.free

/-- Walk a ring applying the scanning action chunk by chunk. -/
def scan_ring (action : Val → Val) (pred : Val → Bool) :
    List Nat → (Nat → Chunk) → Nat → Chunk
  | [], heap => heap
  | c :: rest, heap =>
    scan_ring action pred rest
      (Function.update heap c (scan_chunk action pred (heap c)))

/-- The is_young-clearing loop of the minor branch of scan_roots. -/
def mark_old : List Nat → (Nat → Chunk) → Nat → Chunk
  | [], heap => heap
  | c :: rest, heap =>
    mark_old rest
      (Function.update heap c
        (Chunk.mk (heap c).slot false (heap c).free))

/-- scan_roots: during a minor collection scan the young ring through
the nursery filter, demote every young chunk (is_young := false), move
the whole young ring to the back of the old ring and empty the young
ring; otherwise scan both rings with no filter. -/
def scan_roots (action : Val → Val) (minor : Bool) (st : BState) : BState :=
  if ENABLE_BOXROOT_GENERATIONAL && minor then
    let st := { st with
      heap := scan_ring action (fun v => is_young_block v) st.young st.heap }
    match st.young with
    | [] => st
    | _ :: _ =>
      let st := { st with heap := mark_old st.young st.heap }
      { st with old := ring_push_back st.young st.old, young := [] }
  else
    let st := { st with
      heap := scan_ring action (fun _ => true) st.young st.heap }
    { st with heap := scan_ring action (fun _ => true) st.old st.heap }

/-- The state right after bitmap_boxroot_setup: empty rings, zeroed
statistics. -/
def bsetup : BState :=
  { heap := fun _ => Chunk.mk (fun _ => Val.imm 0) false BITMAP_EMPTY
    young := []
    old := []
    freed := []
    next_id := 0
    stats := Stats.zero }

end BitmapBoxroot

namespace RemBoxroot

theorem CAP_eq : CAP = 2042 := by decide

theorem CAP_pos : 0 < CAP := by decide

theorem Chain.base_of_nil {roots : Nat → Slot} {p : Ptr}
    (h : Chain roots p []) : p = Ptr.base := by
  cases h; rfl

theorem Chain.head_eq {roots : Nat → Slot} {p : Ptr} {i : Nat} {l : List Nat}
    (h : Chain roots p (i :: l)) : p = Ptr.cell i := by
  cases h; rfl

theorem Chain.ne_null {roots : Nat → Slot} {p : Ptr} {l : List Nat}
    (h : Chain roots p l) : p ≠ Ptr.null := by
  cases h <;> simp

theorem Chain.inv_cons {roots : Nat → Slot} {i : Nat} {m : List Nat}
    (h : Chain roots (Ptr.cell i) m) :
    ∃ next l, m = i :: l ∧ roots i = Slot.free next ∧ Chain roots next l := by
  cases h with
  | cons hf hc => exact ⟨_, _, rfl, hf, hc⟩

theorem Chain.isFree_of_mem {roots : Nat → Slot} {p : Ptr} {l : List Nat}
    (h : Chain roots p l) {i : Nat} (hi : i ∈ l) :
    (roots i).isFree = true := by
  induction h with
  | nil => cases hi
  | cons hf _ ih =>
    rcases List.mem_cons.mp hi with rfl | hi
    · simp [hf, Slot.isFree]
    · exact ih hi

theorem Chain.update_not_mem {roots : Nat → Slot} {p : Ptr} {l : List Nat}
    (h : Chain roots p l) {j : Nat} {s : Slot} (hj : j ∉ l) :
    Chain (Function.update roots j s) p l := by
  induction h with
  | nil => exact .nil
  | cons hf hc ih =>
    rename_i i next l'
    refine .cons ?_ (ih (fun hm => hj (List.mem_cons_of_mem _ hm)))
    rw [Function.update_noteq (fun he => hj (by rw [← he]; exact List.mem_cons_self _ _))]
    exact hf

theorem Chain.push {roots : Nat → Slot} {p : Ptr} {l : List Nat}
    (h : Chain roots p l) {i : Nat} (hi : i ∉ l) :
    Chain (Function.update roots i (Slot.free p)) (Ptr.cell i) (i :: l) :=
  .cons (Function.update_same _ _ _) (h.update_not_mem hi)

theorem mem_of_getLast_eq {l : List Nat} {j : Nat}
    (h : l.getLast? = some j) : j ∈ l := by
  obtain ⟨hne, he⟩ := List.mem_getLast?_eq_getLast (Option.mem_def.mpr h)
  exact he ▸ List.getLast_mem hne

/-- Splice: overwrite the link of the last slot of the first chain with
the head of the second chain; the result chains the concatenation. -/
theorem Chain.splice {roots : Nat → Slot} {h₂ h₁ : Ptr}
    {l₂ l₁ : List Nat} {j : Nat}
    (hc₂ : Chain roots h₂ l₂) (hc₁ : Chain roots h₁ l₁)
    (hnd : l₂.Nodup) (hdisj : ∀ x ∈ l₂, x ∉ l₁)
    (hj : l₂.getLast? = some j) :
    Chain (Function.update roots j (Slot.free h₁)) h₂ (l₂ ++ l₁) := by
  induction hc₂ with
  | nil => simp at hj
  | cons hf hc ih =>
    rename_i i next l
    cases l with
    | nil =>
      have hji : i = j := by simpa using hj
      subst hji
      exact .cons (Function.update_same _ _ _)
        (hc₁.update_not_mem (hdisj i (by simp)))
    | cons b bs =>
      have hj' : (b :: bs).getLast? = some j := by
        simpa [List.getLast?_cons_cons] using hj
      have hjmem : j ∈ b :: bs := mem_of_getLast_eq hj'
      have hij : i ≠ j := fun he => (List.nodup_cons.mp hnd).1 (he ▸ hjmem)
      refine .cons ?_ (ih (List.nodup_cons.mp hnd).2
        (fun x hx => hdisj x (List.mem_cons_of_mem _ hx)) hj')
      rw [Function.update_noteq hij]
      exact hf

/-- Loop invariant of get_empty_pool's initialisation loop. -/
theorem fill_free_spec (n : Nat) (acc : Ptr × (Nat → Slot)) (l : List Nat)
    (hch : Chain acc.2 acc.1 l) (hge : ∀ j ∈ l, n ≤ j) :
    Chain (fill_free n acc).2 (fill_free n acc).1 (List.range n ++ l) ∧
    ∀ j, n ≤ j → (fill_free n acc).2 j = acc.2 j := by
  induction n generalizing acc l with
  | zero => exact ⟨by simpa using hch, fun j _ => rfl⟩
  | succ n ih =>
    have hnot : n ∉ l := fun hmem => by have := hge n hmem; omega
    have hch' : Chain (Function.update acc.2 n (Slot.free acc.1))
        (Ptr.cell n) (n :: l) := hch.push hnot
    have hge' : ∀ j ∈ n :: l, n ≤ j := by
      intro j hj
      rcases List.mem_cons.mp hj with rfl | hj
      · omega
      · have := hge j hj; omega
    obtain ⟨h1, h2⟩ := ih (free_list_push n acc.1 acc.2) (n :: l) hch' hge'
    refine ⟨?_, ?_⟩
    · rw [List.range_succ]
      simpa [fill_free, List.append_assoc] using h1
    · intro j hj
      have := h2 j (by omega)
      rw [show fill_free (n + 1) acc
            = fill_free n (free_list_push n acc.1 acc.2) from rfl, this]
      exact Function.update_noteq (by omega) _ _

/-- A freshly initialised pool satisfies the pool invariant with the
whole slot array on the major free list. -/
theorem pool_new_freeLists : FreeLists pool_new (List.range CAP) [] := by
  have hspec := fill_free_spec CAP
    (empty_free_list, fun _ => Slot.free Ptr.null) [] Chain.nil (by simp)
  obtain ⟨hch, -⟩ := hspec
  have hch' : Chain pool_new.roots pool_new.hd.major_free_list
      (List.range CAP) := by
    simpa [pool_new] using hch
  refine ⟨hch', Chain.nil, ?_, ?_, ?_, ?_⟩
  · simpa using List.nodup_range CAP
  · intro i
    constructor
    · intro hi
      simp only [List.append_nil, List.mem_range] at hi
      exact ⟨hi, hch'.isFree_of_mem (by simpa using hi)⟩
    · intro ⟨hi, _⟩
      simpa using hi
  · simp [pool_new]
  · intro j hj
    simp at hj

theorem pool_new_inv : PoolInv pool_new :=
  ⟨_, _, pool_new_freeLists⟩

theorem Slot.not_isFree_of_isFull {s : Slot} (h : s.isFull = true) :
    ¬ s.isFree = true := by
  cases s <;> simp_all [Slot.isFull, Slot.isFree]

theorem FreeLists.major_empty_iff {pl : Pool} {l₁ l₂ : List Nat}
    (h : FreeLists pl l₁ l₂) :
    is_empty_free_list pl.hd.major_free_list = true ↔ l₁ = [] := by
  cases l₁ with
  | nil => simp [is_empty_free_list, h.chain_major.base_of_nil]
  | cons i t => rw [h.chain_major.head_eq]; simp [is_empty_free_list]

theorem FreeLists.minor_empty_iff {pl : Pool} {l₁ l₂ : List Nat}
    (h : FreeLists pl l₁ l₂) :
    is_empty_free_list pl.hd.minor_free_list = true ↔ l₂ = [] := by
  cases l₂ with
  | nil => simp [is_empty_free_list, h.chain_minor.base_of_nil]
  | cons i t => rw [h.chain_minor.head_eq]; simp [is_empty_free_list]

theorem FreeLists.len_le {pl : Pool} {l₁ l₂ : List Nat}
    (h : FreeLists pl l₁ l₂) : (l₁ ++ l₂).length ≤ CAP := by
  have hsub : l₁ ++ l₂ ⊆ List.range CAP := by
    intro x hx
    exact List.mem_range.mpr ((h.mem_iff x).mp hx).1
  simpa using (h.nodup.subperm hsub).length_le

theorem FreeLists.full_iff {pl : Pool} {l₁ l₂ : List Nat}
    (h : FreeLists pl l₁ l₂) :
    is_full_pool pl = true ↔ l₁ ++ l₂ = [] := by
  rw [is_full_pool, decide_eq_true_eq, h.alloc_eq]
  constructor
  · intro he
    have hlen : (l₁ ++ l₂).length = 0 := by omega
    exact List.eq_nil_of_length_eq_zero hlen
  · intro he
    simp [he]

theorem FreeLists.pop_major {pl : Pool} {l₁ l₂ : List Nat} {i : Nat}
    {t : List Nat} (h : FreeLists pl l₁ l₂) (hl : l₁ = i :: t) :
    ∃ next, pl.roots i = Slot.free next ∧
      free_list_pop pl.hd.major_free_list pl.roots = some (i, next) ∧
      Chain pl.roots next t := by
  subst hl
  have hch := h.chain_major
  rw [hch.head_eq] at hch
  obtain ⟨next, l, heq, hf, hc⟩ := hch.inv_cons
  rw [List.cons.injEq] at heq
  obtain ⟨-, rfl⟩ := heq
  refine ⟨next, hf, ?_, hc⟩
  rw [h.chain_major.head_eq]
  simp [free_list_pop, hf]

theorem FreeLists.pop_minor {pl : Pool} {l₁ l₂ : List Nat} {i : Nat}
    {t : List Nat} (h : FreeLists pl l₁ l₂) (hl : l₂ = i :: t) :
    ∃ next, pl.roots i = Slot.free next ∧
      free_list_pop pl.hd.minor_free_list pl.roots = some (i, next) ∧
      Chain pl.roots next t := by
  subst hl
  have hch := h.chain_minor
  rw [hch.head_eq] at hch
  obtain ⟨next, l, heq, hf, hc⟩ := hch.inv_cons
  rw [List.cons.injEq] at heq
  obtain ⟨-, rfl⟩ := heq
  refine ⟨next, hf, ?_, hc⟩
  rw [h.chain_minor.head_eq]
  simp [free_list_pop, hf]

/-- Pool resulting from alloc_slot popping the major free list followed
by rem_boxroot_create storing the payload. -/
theorem FreeLists.after_pop_major {pl : Pool} {l₁ l₂ : List Nat}
    {i : Nat} {t : List Nat} {next : Ptr} (h : FreeLists pl l₁ l₂)
    (hl : l₁ = i :: t) (hnext : pl.roots i = Slot.free next) (v : Val) :
    FreeLists
      { hd := { major_free_list := next
                minor_free_list := pl.hd.minor_free_list
                last_minor_free_slot := pl.hd.last_minor_free_slot
                alloc_count := pl.hd.alloc_count + 1 }
        roots := Function.update pl.roots i (Slot.full v) } t l₂ := by
  subst hl
  have hnd := h.nodup
  rw [List.cons_append, List.nodup_cons] at hnd
  obtain ⟨hi_not, hnd'⟩ := hnd
  obtain ⟨next', hf, _, hc⟩ := h.pop_major rfl
  rw [hnext] at hf
  obtain rfl : next' = next := by
    cases hf; rfl
  refine ⟨?_, ?_, hnd', ?_, ?_, ?_⟩
  · exact hc.update_not_mem (fun hm => hi_not (List.mem_append_left _ hm))
  · exact h.chain_minor.update_not_mem
      (fun hm => hi_not (List.mem_append_right _ hm))
  · intro x
    by_cases hx : x = i
    · subst hx
      simp [hi_not, Function.update_same, Slot.isFree]
    · show x ∈ t ++ l₂ ↔ x < CAP ∧
        (Function.update pl.roots i (Slot.full v) x).isFree = true
      rw [Function.update_noteq hx]
      have := h.mem_iff x
      rw [List.cons_append, List.mem_cons] at this
      simpa [hx] using this
  · show pl.hd.alloc_count + 1 = (CAP : Int) - (t ++ l₂).length
    have := h.alloc_eq
    rw [List.cons_append] at this
    simp only [List.length_cons] at this
    push_cast at this ⊢
    omega
  · exact h.last_eq

/-- Pool resulting from alloc_slot popping the minor free list followed
by rem_boxroot_create storing the payload. -/
theorem FreeLists.after_pop_minor {pl : Pool} {l₁ l₂ : List Nat}
    {i : Nat} {t : List Nat} {next : Ptr} (h : FreeLists pl l₁ l₂)
    (hl : l₂ = i :: t) (hnext : pl.roots i = Slot.free next) (v : Val) :
    FreeLists
      { hd := { major_free_list := pl.hd.major_free_list
                minor_free_list := next
                last_minor_free_slot := pl.hd.last_minor_free_slot
                alloc_count := pl.hd.alloc_count + 1 }
        roots := Function.update pl.roots i (Slot.full v) } l₁ t := by
  subst hl
  have hi_not : i ∉ l₁ ∧ i ∉ t := by
    have hnd := h.nodup
    have hdisj := List.disjoint_of_nodup_append hnd
    have hnd₂ := (List.Nodup.of_append_right hnd)
    rw [List.nodup_cons] at hnd₂
    exact ⟨fun hm => hdisj hm (List.mem_cons_self _ _), hnd₂.1⟩
  obtain ⟨next', hf, _, hc⟩ := h.pop_minor rfl
  rw [hnext] at hf
  obtain rfl : next' = next := by
    cases hf; rfl
  refine ⟨?_, ?_, ?_, ?_, ?_, ?_⟩
  · exact h.chain_major.update_not_mem hi_not.1
  · exact hc.update_not_mem hi_not.2
  · have hsub : List.Sublist (l₁ ++ t) (l₁ ++ i :: t) :=
      List.Sublist.append_left (List.sublist_cons_of_sublist i (List.Sublist.refl t)) l₁
    exact h.nodup.sublist hsub
  · intro x
    by_cases hx : x = i
    · subst hx
      show x ∈ l₁ ++ t ↔ x < CAP ∧
        (Function.update pl.roots x (Slot.full v) x).isFree = true
      rw [Function.update_same]
      constructor
      · intro hm
        rcases List.mem_append.mp hm with hm | hm
        · exact absurd hm hi_not.1
        · exact absurd hm hi_not.2
      · rintro ⟨-, hfr⟩
        simp [Slot.isFree] at hfr
    · show x ∈ l₁ ++ t ↔ x < CAP ∧
        (Function.update pl.roots i (Slot.full v) x).isFree = true
      rw [Function.update_noteq hx]
      have := h.mem_iff x
      rw [List.mem_append, List.mem_cons] at this
      rw [List.mem_append]
      simpa [hx] using this
  · show pl.hd.alloc_count + 1 = (CAP : Int) - (l₁ ++ t).length
    have := h.alloc_eq
    simp only [List.length_append, List.length_cons] at this
    simp only [List.length_append]
    push_cast at this ⊢
    omega
  · intro j hj
    refine h.last_eq j ?_
    cases t with
    | nil => simp at hj
    | cons b bs => rw [List.getLast?_cons_cons]; exact hj

theorem FreeLists.not_mem_of_isFull {pl : Pool} {l₁ l₂ : List Nat} {i : Nat}
    (h : FreeLists pl l₁ l₂) (hfull : (pl.roots i).isFull = true) :
    i ∉ l₁ ++ l₂ := fun hm =>
  Slot.not_isFree_of_isFull hfull ((h.mem_iff i).mp hm).2

/-- Pool resulting from dealloc_slot pushing a full cell onto the major
free list. -/
theorem FreeLists.after_push_major {pl : Pool} {l₁ l₂ : List Nat} {i : Nat}
    (h : FreeLists pl l₁ l₂) (hi : i < CAP)
    (hfull : (pl.roots i).isFull = true) :
    FreeLists
      { hd := { major_free_list := Ptr.cell i
                minor_free_list := pl.hd.minor_free_list
                last_minor_free_slot := pl.hd.last_minor_free_slot
                alloc_count := pl.hd.alloc_count - 1 }
        roots := Function.update pl.roots i
          (Slot.free pl.hd.major_free_list) } (i :: l₁) l₂ := by
  have hnm := h.not_mem_of_isFull hfull
  refine ⟨?_, ?_, ?_, ?_, ?_, ?_⟩
  · exact h.chain_major.push (fun hm => hnm (List.mem_append_left _ hm))
  · exact h.chain_minor.update_not_mem
      (fun hm => hnm (List.mem_append_right _ hm))
  · rw [List.cons_append, List.nodup_cons]
    exact ⟨hnm, h.nodup⟩
  · intro x
    by_cases hx : x = i
    · subst hx
      show x ∈ x :: l₁ ++ l₂ ↔ x < CAP ∧
        (Function.update pl.roots x (Slot.free pl.hd.major_free_list) x).isFree = true
      rw [Function.update_same]
      simp [hi, Slot.isFree]
    · show x ∈ i :: l₁ ++ l₂ ↔ x < CAP ∧
        (Function.update pl.roots i (Slot.free pl.hd.major_free_list) x).isFree = true
      rw [Function.update_noteq hx]
      have := h.mem_iff x
      rw [List.cons_append, List.mem_cons]
      simpa [hx] using this
  · show pl.hd.alloc_count - 1 = (CAP : Int) - ((i :: l₁) ++ l₂).length
    have := h.alloc_eq
    rw [List.cons_append]
    simp only [List.length_cons]
    push_cast at this ⊢
    omega
  · exact h.last_eq

/-- Pool resulting from dealloc_slot pushing a full cell holding a young
payload onto the minor free list when that list was empty: the stored
tail pointer is set to the pushed cell. -/
theorem FreeLists.after_push_minor_empty {pl : Pool} {l₁ : List Nat} {i : Nat}
    (h : FreeLists pl l₁ []) (hi : i < CAP)
    (hfull : (pl.roots i).isFull = true) :
    FreeLists
      { hd := { major_free_list := pl.hd.major_free_list
                minor_free_list := Ptr.cell i
                last_minor_free_slot := Ptr.cell i
                alloc_count := pl.hd.alloc_count - 1 }
        roots := Function.update pl.roots i
          (Slot.free pl.hd.minor_free_list) } l₁ [i] := by
  have hnm := h.not_mem_of_isFull hfull
  rw [List.append_nil] at hnm
  refine ⟨?_, ?_, ?_, ?_, ?_, ?_⟩
  · exact h.chain_major.update_not_mem hnm
  · exact h.chain_minor.push (by simp)
  · simp only [List.nodup_append, List.nodup_cons]
    refine ⟨(by simpa using h.nodup), by simp, ?_⟩
    intro x hx
    simp only [List.mem_singleton]
    exact fun he => hnm (he ▸ hx)
  · intro x
    by_cases hx : x = i
    · subst hx
      show x ∈ l₁ ++ [x] ↔ x < CAP ∧
        (Function.update pl.roots x (Slot.free pl.hd.minor_free_list) x).isFree = true
      rw [Function.update_same]
      simp [hi, Slot.isFree]
    · show x ∈ l₁ ++ [i] ↔ x < CAP ∧
        (Function.update pl.roots i (Slot.free pl.hd.minor_free_list) x).isFree = true
      rw [Function.update_noteq hx]
      have := h.mem_iff x
      rw [List.append_nil] at this
      rw [List.mem_append, List.mem_singleton]
      simpa [hx] using this
  · show pl.hd.alloc_count - 1 = (CAP : Int) - (l₁ ++ [i]).length
    have := h.alloc_eq
    rw [List.append_nil] at this
    simp only [List.length_append, List.length_singleton]
    push_cast at this ⊢
    omega
  · intro j hj
    have hji : i = j := by simpa using hj
    subst hji
    rfl

/-- Pool resulting from dealloc_slot pushing a full cell holding a young
payload onto a non-empty minor free list: the stored tail pointer is
unchanged. -/
theorem FreeLists.after_push_minor_nonempty {pl : Pool} {l₁ l₂ : List Nat}
    {i : Nat} (h : FreeLists pl l₁ l₂) (hi : i < CAP)
    (hfull : (pl.roots i).isFull = true) (hne : l₂ ≠ []) :
    FreeLists
      { hd := { major_free_list := pl.hd.major_free_list
                minor_free_list := Ptr.cell i
                last_minor_free_slot := pl.hd.last_minor_free_slot
                alloc_count := pl.hd.alloc_count - 1 }
        roots := Function.update pl.roots i
          (Slot.free pl.hd.minor_free_list) } l₁ (i :: l₂) := by
  have hnm := h.not_mem_of_isFull hfull
  refine ⟨?_, ?_, ?_, ?_, ?_, ?_⟩
  · exact h.chain_major.update_not_mem
      (fun hm => hnm (List.mem_append_left _ hm))
  · exact h.chain_minor.push (fun hm => hnm (List.mem_append_right _ hm))
  · have hnd := h.nodup
    rw [List.nodup_append] at hnd
    obtain ⟨hn₁, hn₂, hdisj⟩ := hnd
    rw [List.nodup_append, List.nodup_cons]
    refine ⟨hn₁, ⟨fun hm => hnm (List.mem_append_right _ hm), hn₂⟩, ?_⟩
    intro x hx
    simp only [List.mem_cons]
    rintro (rfl | hm)
    · exact hnm (List.mem_append_left _ hx)
    · exact hdisj hx hm
  · intro x
    by_cases hx : x = i
    · subst hx
      show x ∈ l₁ ++ x :: l₂ ↔ x < CAP ∧
        (Function.update pl.roots x (Slot.free pl.hd.minor_free_list) x).isFree = true
      rw [Function.update_same]
      simp [hi, Slot.isFree]
    · show x ∈ l₁ ++ i :: l₂ ↔ x < CAP ∧
        (Function.update pl.roots i (Slot.free pl.hd.minor_free_list) x).isFree = true
      rw [Function.update_noteq hx]
      have := h.mem_iff x
      rw [List.mem_append] at this
      rw [List.mem_append, List.mem_cons]
      simpa [hx] using this
  · show pl.hd.alloc_count - 1 = (CAP : Int) - (l₁ ++ i :: l₂).length
    have := h.alloc_eq
    simp only [List.length_append, List.length_cons]
    simp only [List.length_append] at this
    push_cast at this ⊢
    omega
  · intro j hj
    refine h.last_eq j ?_
    cases l₂ with
    | nil => exact absurd rfl hne
    | cons b bs => rw [List.getLast?_cons_cons] at hj; exact hj

/-- rem_boxroot_modify overwrites a full cell with a full cell: the
free-list structure is untouched. -/
theorem FreeLists.write_full {pl : Pool} {l₁ l₂ : List Nat} {i : Nat}
    (h : FreeLists pl l₁ l₂) (hfull : (pl.roots i).isFull = true) (v : Val) :
    FreeLists { pl with
      roots := Function.update pl.roots i (Slot.full v) } l₁ l₂ := by
  have hnm := h.not_mem_of_isFull hfull
  refine ⟨?_, ?_, h.nodup, ?_, h.alloc_eq, h.last_eq⟩
  · exact h.chain_major.update_not_mem
      (fun hm => hnm (List.mem_append_left _ hm))
  · exact h.chain_minor.update_not_mem
      (fun hm => hnm (List.mem_append_right _ hm))
  · intro x
    by_cases hx : x = i
    · subst hx
      show x ∈ l₁ ++ l₂ ↔ x < CAP ∧
        (Function.update pl.roots x (Slot.full v) x).isFree = true
      rw [Function.update_same]
      simp only [Slot.isFree]
      constructor
      · intro hm; exact absurd hm hnm
      · rintro ⟨-, hfr⟩; cases hfr
    · show x ∈ l₁ ++ l₂ ↔ x < CAP ∧
        (Function.update pl.roots i (Slot.full v) x).isFree = true
      rw [Function.update_noteq hx]
      exact h.mem_iff x

theorem ring_push_back_fst (p : Nat) (t : List Nat) :
    (ring_push_back p t).1 = t ++ [p] := by
  cases t <;> simp [ring_push_back]

theorem skip_full_spec (heap : Nat → Pool) (ps fps : List Nat) (ops : Nat) :
    ((skip_full heap ps fps ops).1 ++ (skip_full heap ps fps ops).2.1).Perm
      (ps ++ fps) ∧
    (∀ q t, (skip_full heap ps fps ops).1 = q :: t →
      is_full_pool (heap q) = false) ∧
    (skip_full heap ps fps ops).1.length ≤ ps.length := by
  induction ps generalizing fps ops with
  | nil => simp [skip_full]
  | cons p rest ih =>
    by_cases hf : is_full_pool (heap p) = true
    · have hstep : skip_full heap (p :: rest) fps ops =
          skip_full heap rest (ring_push_back p fps).1
            (ops + (if rest.isEmpty then 0 else 2) + (ring_push_back p fps).2) := by
        simp [skip_full, hf]
      rw [hstep, ring_push_back_fst]
      obtain ⟨hperm, hhead, hlen⟩ := ih (fps ++ [p]) _
      refine ⟨?_, hhead, by simpa using Nat.le_succ_of_le hlen⟩
      refine hperm.trans ?_
      rw [← List.append_assoc]
      refine (List.perm_append_comm).trans ?_
      simp
    · have hstep : skip_full heap (p :: rest) fps ops = (p :: rest, fps, ops) := by
        simp [skip_full, hf]
      rw [hstep]
      refine ⟨List.Perm.refl _, ?_, le_refl _⟩
      intro q t hqt
      rw [List.cons.injEq] at hqt
      obtain ⟨rfl, -⟩ := hqt
      simpa using hf

/-- Membership rearrangement for the pool_remove / ring_push_back pair
used by dealloc_slot. -/
theorem remove_push_perm (p : Nat) (pools full_pools : List Nat)
    (hmem : p ∈ pools ++ full_pools) :
    (((pool_remove p pools full_pools).1 ++ [p]) ++
      (pool_remove p pools full_pools).2.1).Perm (pools ++ full_pools) := by
  by_cases h₁ : p ∈ pools
  · have : pool_remove p pools full_pools =
        (pools.erase p, full_pools, if pools = [p] then 0 else 2) := by
      simp [pool_remove, h₁]
    rw [this]
    have hpe : pools.Perm (p :: pools.erase p) := List.perm_cons_erase h₁
    refine List.Perm.trans ?_ ((hpe.append_right full_pools).symm)
    have : (pools.erase p ++ [p]).Perm (p :: pools.erase p) := by
      refine (List.perm_append_comm).trans ?_
      simp
    exact this.append_right full_pools
  · have h₂ : p ∈ full_pools := by
      rcases List.mem_append.mp hmem with h | h
      · exact absurd h h₁
      · exact h
    have : pool_remove p pools full_pools =
        (pools, full_pools.erase p, if full_pools = [p] then 0 else 2) := by
      simp [pool_remove, h₁, h₂]
    rw [this]
    have hpe : full_pools.Perm (p :: full_pools.erase p) :=
      List.perm_cons_erase h₂
    rw [List.append_assoc]
    refine List.Perm.trans ?_ ((hpe.append_left pools).symm)
    refine List.Perm.append_left pools ?_
    simp

/-- Behaviour of alloc_slot_in on a non-full pool satisfying the pool
invariant: it returns a slot of that pool, popped from the free list
that the payload generation prefers, falling back to the other list;
a young payload served from the major list is added to the remembered
set.  The pool invariant is re-established once the payload is stored. -/
theorem alloc_slot_in_spec (b : Bool) (p : Nat) (st : State)
    {l₁ l₂ : List Nat} (hfl : FreeLists (st.heap p) l₁ l₂)
    (hnf : is_full_pool (st.heap p) = false) :
    ∃ i st', alloc_slot_in b p st = (some (p, i), st') ∧
      i < CAP ∧
      st'.pools = st.pools ∧ st'.full_pools = st.full_pools ∧
      st'.next_id = st.next_id ∧ st'.setup = st.setup ∧
      st'.oracle = st.oracle ∧ st'.freed = st.freed ∧
      st'.log_count = st.log_count ∧ st'.stats = st.stats ∧
      (∀ q, q ≠ p → st'.heap q = st.heap q) ∧
      (st'.heap p).hd.alloc_count = (st.heap p).hd.alloc_count + 1 ∧
      (st'.heap p).roots = (st.heap p).roots ∧
      (∀ v, PoolInv { st'.heap p with
        roots := Function.update (st'.heap p).roots i (Slot.full v) }) ∧
      (if b then
        (if l₂ = [] then st'.rem_set = st.rem_set ++ [(p, i)] ∧ l₁.head? = some i
         else st'.rem_set = st.rem_set ∧ l₂.head? = some i)
       else
        (st'.rem_set = st.rem_set ∧
         (if l₁ = [] then l₂.head? = some i else l₁.head? = some i))) := by
  have hne : ¬ (l₁ = [] ∧ l₂ = []) := by
    rintro ⟨rfl, rfl⟩
    rw [hfl.full_iff.mpr rfl] at hnf
    cases hnf
  cases b with
  | true =>
    cases hl₂ : l₂ with
    | cons i t =>
      obtain ⟨next, hf, hpop, -⟩ := hfl.pop_minor hl₂
      have hcond : is_empty_free_list (st.heap p).hd.minor_free_list = false := by
        rw [Bool.eq_false_iff]
        intro hc
        rw [hfl.minor_empty_iff] at hc
        simp [hc] at hl₂
      have hrun : alloc_slot_in true p st = (some (p, i), { st with heap := Function.update st.heap p (Pool.mk (Header.mk (st.heap p).hd.major_free_list next (st.heap p).hd.last_minor_free_slot ((st.heap p).hd.alloc_count + 1)) (st.heap p).roots) }) := by
        simp [alloc_slot_in, hcond, hpop]
      refine ⟨i, _, hrun, ((hfl.mem_iff i).mp (by simp [hl₂])).1,
        rfl, rfl, rfl, rfl, rfl, rfl, rfl, rfl,
        ?_, by simp, by simp, ?_, by simp [hl₂]⟩
      · intro q hq
        simp [Function.update_noteq hq]
      · intro v
        refine ⟨l₁, t, ?_⟩
        simpa using hfl.after_pop_minor hl₂ hf v
    | nil =>
      have hl₁' : ∃ i t, l₁ = i :: t := by
        cases l₁ with
        | nil => exact absurd ⟨rfl, hl₂⟩ hne
        | cons a s => exact ⟨a, s, rfl⟩
      obtain ⟨i, t, hl₁⟩ := hl₁'
      obtain ⟨next, hf, hpop, -⟩ := hfl.pop_major hl₁
      have hcond : is_empty_free_list (st.heap p).hd.minor_free_list = true := by
        rw [hfl.minor_empty_iff]
        exact hl₂
      have hrun : alloc_slot_in true p st = (some (p, i), { st with heap := Function.update st.heap p (Pool.mk (Header.mk next (st.heap p).hd.minor_free_list (st.heap p).hd.last_minor_free_slot ((st.heap p).hd.alloc_count + 1)) (st.heap p).roots), rem_set := st.rem_set ++ [(p, i)] }) := by
        simp [alloc_slot_in, hcond, hpop, remember]
      refine ⟨i, _, hrun, ((hfl.mem_iff i).mp (by simp [hl₁])).1,
        rfl, rfl, rfl, rfl, rfl, rfl, rfl, rfl,
        ?_, by simp, by simp, ?_, by simp [hl₁]⟩
      · intro q hq
        simp [Function.update_noteq hq]
      · intro v
        refine ⟨t, l₂, ?_⟩
        simpa using hfl.after_pop_major hl₁ hf v
  | false =>
    cases hl₁ : l₁ with
    | cons i t =>
      obtain ⟨next, hf, hpop, -⟩ := hfl.pop_major hl₁
      have hcond : is_empty_free_list (st.heap p).hd.major_free_list = false := by
        rw [Bool.eq_false_iff]
        intro hc
        rw [hfl.major_empty_iff] at hc
        simp [hc] at hl₁
      have hrun : alloc_slot_in false p st = (some (p, i), { st with heap := Function.update st.heap p (Pool.mk (Header.mk next (st.heap p).hd.minor_free_list (st.heap p).hd.last_minor_free_slot ((st.heap p).hd.alloc_count + 1)) (st.heap p).roots) }) := by
        simp [alloc_slot_in, hcond, hpop]
      refine ⟨i, _, hrun, ((hfl.mem_iff i).mp (by simp [hl₁])).1,
        rfl, rfl, rfl, rfl, rfl, rfl, rfl, rfl,
        ?_, by simp, by simp, ?_, by simp [hl₁]⟩
      · intro q hq
        simp [Function.update_noteq hq]
      · intro v
        refine ⟨t, l₂, ?_⟩
        simpa using hfl.after_pop_major hl₁ hf v
    | nil =>
      have hl₂' : ∃ i t, l₂ = i :: t := by
        cases l₂ with
        | nil => exact absurd ⟨hl₁, rfl⟩ hne
        | cons a s => exact ⟨a, s, rfl⟩
      obtain ⟨i, t, hl₂⟩ := hl₂'
      obtain ⟨next, hf, hpop, -⟩ := hfl.pop_minor hl₂
      have hcond : is_empty_free_list (st.heap p).hd.major_free_list = true := by
        rw [hfl.major_empty_iff]
        exact hl₁
      have hrun : alloc_slot_in false p st = (some (p, i), { st with heap := Function.update st.heap p (Pool.mk (Header.mk (st.heap p).hd.major_free_list next (st.heap p).hd.last_minor_free_slot ((st.heap p).hd.alloc_count + 1)) (st.heap p).roots) }) := by
        simp [alloc_slot_in, hcond, hpop]
      refine ⟨i, _, hrun, ((hfl.mem_iff i).mp (by simp [hl₂])).1,
        rfl, rfl, rfl, rfl, rfl, rfl, rfl, rfl,
        ?_, by simp, by simp, ?_, by simp [hl₁, hl₂]⟩
      · intro q hq
        simp [Function.update_noteq hq]
      · intro v
        refine ⟨l₁, t, ?_⟩
        simpa using hfl.after_pop_minor hl₂ hf v

/-- find_available_pool preserves the global invariant; on success the
returned pool heads the non-full ring and is not full; pool memory below
the allocation cursor is untouched and owned pools stay owned. -/
theorem find_available_pool_spec (st : State) (hinv : Inv st) :
    Inv (find_available_pool st).2 ∧
    (find_available_pool st).2.setup = st.setup ∧
    (find_available_pool st).2.rem_set = st.rem_set ∧
    (find_available_pool st).2.log_count = st.log_count ∧
    st.next_id ≤ (find_available_pool st).2.next_id ∧
    (∀ q, q < st.next_id → (find_available_pool st).2.heap q = st.heap q) ∧
    (∀ q, q ∈ owned st → q ∈ owned (find_available_pool st).2) ∧
    (∀ q, (find_available_pool st).1 = some q →
      ∃ rest, (find_available_pool st).2.pools = q :: rest ∧
        is_full_pool ((find_available_pool st).2.heap q) = false) := by
  obtain ⟨hperm, hhead, -⟩ := skip_full_spec st.heap st.pools st.full_pools 0
  rcases hm : (skip_full st.heap st.pools st.full_pools 0).1 with _ | ⟨q, rest⟩
  · -- the loop emptied the non-full ring: allocate a fresh pool
    rw [hm] at hperm
    rcases ho : st.oracle.head?.getD true with _ | _
    · -- OOM: the page allocator failed
      have hrun : find_available_pool st = (none,
          { st with
            pools := []
            full_pools := (skip_full st.heap st.pools st.full_pools 0).2.1
            oracle := st.oracle.tail
            stats := { st.stats with
              ring_operations := st.stats.ring_operations +
                (skip_full st.heap st.pools st.full_pools 0).2.2
              live_pools := st.stats.live_pools + 1
              peak_pools := max st.stats.peak_pools (st.stats.live_pools + 1) } }) := by
        simp [find_available_pool, hm, get_empty_pool, ho]
      rw [hrun]
      dsimp only
      have hmem : ∀ x, x ∈ (skip_full st.heap st.pools st.full_pools 0).2.1 ↔
          x ∈ owned st := fun x => by
        rw [owned, List.mem_append]
        simpa using hperm.mem_iff
      refine ⟨⟨?_, ?_, ?_⟩, rfl, rfl, rfl, le_refl _, fun q _ => rfl, ?_, ?_⟩
      · exact hperm.symm.nodup hinv.nodup
      · intro x hx
        simp only [owned, List.nil_append] at hx
        exact hinv.lt_next x ((hmem x).mp hx)
      · intro x hx
        simp only [owned, List.nil_append] at hx
        exact hinv.pool_inv x ((hmem x).mp hx)
      · intro x hx
        simp only [owned, List.nil_append]
        exact (hmem x).mpr hx
      · intro x hx
        cases hx
    · -- fresh pool allocated at next_id
      have hrun : find_available_pool st = (some st.next_id,
          { st with
            pools := [st.next_id]
            full_pools := (skip_full st.heap st.pools st.full_pools 0).2.1
            heap := Function.update st.heap st.next_id pool_new
            next_id := st.next_id + 1
            oracle := st.oracle.tail
            stats := { st.stats with
              ring_operations := st.stats.ring_operations +
                (skip_full st.heap st.pools st.full_pools 0).2.2 + 1
              live_pools := st.stats.live_pools + 1
              peak_pools := max st.stats.peak_pools (st.stats.live_pools + 1)
              total_alloced_pools := st.stats.total_alloced_pools + 1 } }) := by
        simp [find_available_pool, hm, get_empty_pool, ho]
      rw [hrun]
      dsimp only
      have hmem : ∀ x, x ∈ (skip_full st.heap st.pools st.full_pools 0).2.1 ↔
          x ∈ owned st := fun x => by
        rw [owned, List.mem_append]
        simpa using hperm.mem_iff
      have hfresh : st.next_id ∉ (skip_full st.heap st.pools st.full_pools 0).2.1 := by
        intro hc
        exact absurd (hinv.lt_next _ ((hmem _).mp hc)) (by omega)
      refine ⟨⟨?_, ?_, ?_⟩, rfl, rfl, rfl, Nat.le_succ _, ?_, ?_, ?_⟩
      · show (st.next_id :: (skip_full st.heap st.pools st.full_pools 0).2.1).Nodup
        rw [List.nodup_cons]
        exact ⟨hfresh, hperm.symm.nodup hinv.nodup⟩
      · intro x hx
        replace hx : x ∈ st.next_id :: (skip_full st.heap st.pools st.full_pools 0).2.1 := hx
        show x < st.next_id + 1
        rcases List.mem_cons.mp hx with rfl | hx
        · exact Nat.lt_succ_self _
        · exact Nat.lt_succ_of_lt (hinv.lt_next x ((hmem x).mp hx))
      · intro x hx
        replace hx : x ∈ st.next_id :: (skip_full st.heap st.pools st.full_pools 0).2.1 := hx
        show PoolInv (Function.update st.heap st.next_id pool_new x)
        rcases List.mem_cons.mp hx with rfl | hx
        · rw [Function.update_same]
          exact pool_new_inv
        · rw [Function.update_noteq]
          · exact hinv.pool_inv x ((hmem x).mp hx)
          · intro he
            exact absurd (hinv.lt_next x ((hmem x).mp hx)) (by omega)
      · intro x hx
        show Function.update st.heap st.next_id pool_new x = st.heap x
        rw [Function.update_noteq]
        omega
      · intro x hx
        show x ∈ st.next_id :: (skip_full st.heap st.pools st.full_pools 0).2.1
        exact List.mem_cons_of_mem _ ((hmem x).mpr hx)
      · intro x hx
        rw [Option.some.injEq] at hx
        subst hx
        refine ⟨[], rfl, ?_⟩
        show is_full_pool (Function.update st.heap st.next_id pool_new st.next_id) = false
        rw [Function.update_same]
        decide
  · -- non-full pool at the ring head
    rw [hm] at hperm hhead
    have hrun : find_available_pool st = (some q,
        { st with
          pools := q :: rest
          full_pools := (skip_full st.heap st.pools st.full_pools 0).2.1
          stats := { st.stats with
            ring_operations := st.stats.ring_operations +
              (skip_full st.heap st.pools st.full_pools 0).2.2 } }) := by
      simp [find_available_pool, hm]
    rw [hrun]
    dsimp only
    have hmem : ∀ x, x ∈ q :: (rest ++ (skip_full st.heap st.pools st.full_pools 0).2.1) ↔
        x ∈ owned st := fun x => by
      rw [owned, List.mem_append]
      simpa [or_assoc] using hperm.mem_iff
    refine ⟨⟨?_, ?_, ?_⟩, rfl, rfl, rfl, le_refl _, fun x _ => rfl, ?_, ?_⟩
    · exact hperm.symm.nodup hinv.nodup
    · intro x hx
      simp only [owned] at hx
      exact hinv.lt_next x ((hmem x).mp (by simpa using hx))
    · intro x hx
      simp only [owned] at hx
      exact hinv.pool_inv x ((hmem x).mp (by simpa using hx))
    · intro x hx
      simp only [owned]
      have := (hmem x).mpr hx
      simpa using this
    · intro x hx
      rw [Option.some.injEq] at hx
      subst hx
      exact ⟨rest, rfl, hhead q rest rfl⟩

/-- Packaging of the alloc_slot_in_spec conclusions into AllocOk, for a
call on a non-full invariant-satisfying pool of an invariant state. -/
theorem alloc_slot_in_allocOk (b : Bool) (q : Nat) (st₀ st : State)
    (hinv : Inv st) (hq : q ∈ owned st)
    (hnf : is_full_pool (st.heap q) = false)
    (hheap₀ : ∀ x ∈ owned st₀, st.heap x = st₀.heap x)
    (howned₀ : ∀ x ∈ owned st₀, x ∈ owned st) :
    ∀ p i, (alloc_slot_in b q st).1 = some (p, i) →
      AllocOk st₀ p i (alloc_slot_in b q st).2 := by
  obtain ⟨l₁, l₂, hfl⟩ := hinv.pool_inv q hq
  obtain ⟨i, st₂, hrun₂, hlt, hp₂, hfp₂, hnext₂, hsetup₂, horc₂, hfreed₂,
    hlog₂, hstats₂, hheap₂, halloc₂, hroots₂, hpinv₂, -⟩ :=
    alloc_slot_in_spec b q st hfl hnf
  intro p i' hh
  rw [hrun₂] at hh ⊢
  simp only [Option.some.injEq, Prod.mk.injEq] at hh
  obtain ⟨rfl, rfl⟩ := hh
  have howned₂ : owned st₂ = owned st := by
    rw [owned, owned, hp₂, hfp₂]
  refine ⟨hlt, ?_, ?_, ?_, ?_, hpinv₂, ?_, ?_, ?_⟩
  · rw [howned₂]; exact hinv.nodup
  · rw [howned₂, hnext₂]; exact hinv.lt_next
  · intro x hx hxp
    rw [hheap₂ x hxp]
    exact hinv.pool_inv x (by rw [← howned₂]; exact hx)
  · rw [howned₂]; exact hq
  · intro x hx
    rw [howned₂]
    exact howned₀ x hx
  · intro x hx hxp
    rw [hheap₂ x hxp]
    exact hheap₀ x hx
  · intro hmem
    rw [halloc₂, hheap₀ q hmem]

/-- Behaviour of alloc_slot under the global invariant.  On failure the
pool memory of owned pools is untouched; on success the returned slot
belongs to an owned pool of the result state, and storing any payload in
it restores the pool invariant. -/
theorem alloc_slot_spec (b : Bool) (st : State) (hinv : Inv st) :
    ((alloc_slot b st).1 = none →
      Inv (alloc_slot b st).2 ∧
      (∀ q ∈ owned st, (alloc_slot b st).2.heap q = st.heap q) ∧
      (∀ q ∈ owned st, q ∈ owned (alloc_slot b st).2)) ∧
    (∀ p i, (alloc_slot b st).1 = some (p, i) →
      AllocOk st p i (alloc_slot b st).2) := by
  have hfail : alloc_slot b st = (none, { st with log_count := st.log_count + 1 }) →
      ((alloc_slot b st).1 = none →
        Inv (alloc_slot b st).2 ∧
        (∀ q ∈ owned st, (alloc_slot b st).2.heap q = st.heap q) ∧
        (∀ q ∈ owned st, q ∈ owned (alloc_slot b st).2)) ∧
      (∀ p i, (alloc_slot b st).1 = some (p, i) →
        AllocOk st p i (alloc_slot b st).2) := by
    intro hrun
    rw [hrun]
    refine ⟨fun _ => ⟨⟨hinv.nodup, hinv.lt_next, hinv.pool_inv⟩,
      fun q _ => rfl, fun q hq => hq⟩, ?_⟩
    intro p i hh
    simp at hh
  have hfind_case : st.setup = true →
      ((∀ st', find_available_pool st = (none, st') → alloc_slot b st = (none, st')) ∧
       (∀ q st', find_available_pool st = (some q, st') →
          alloc_slot b st = alloc_slot_in b q st')) →
      ((alloc_slot b st).1 = none →
        Inv (alloc_slot b st).2 ∧
        (∀ q ∈ owned st, (alloc_slot b st).2.heap q = st.heap q) ∧
        (∀ q ∈ owned st, q ∈ owned (alloc_slot b st).2)) ∧
      (∀ p i, (alloc_slot b st).1 = some (p, i) →
        AllocOk st p i (alloc_slot b st).2) := by
    intro hsetup hred
    obtain ⟨hinv₁, -, -, -, -, hheap₁, howned₁, hsucc₁⟩ :=
      find_available_pool_spec st hinv
    rcases hfind : find_available_pool st with ⟨r, stf⟩
    rw [hfind] at hinv₁ hheap₁ howned₁ hsucc₁
    dsimp only at hinv₁ hheap₁ howned₁ hsucc₁
    rcases r with _ | q
    · have hrun : alloc_slot b st = (none, stf) := hred.1 stf hfind
      rw [hrun]
      refine ⟨fun _ => ⟨hinv₁, ?_, howned₁⟩, ?_⟩
      · intro q hq
        exact hheap₁ q (hinv.lt_next q hq)
      · intro p i hh
        simp at hh
    · have hrun : alloc_slot b st = alloc_slot_in b q stf := hred.2 q stf hfind
      obtain ⟨rest, hpools₁, hnf₁⟩ := hsucc₁ q rfl
      have hmemq : q ∈ owned stf := by
        rw [owned, hpools₁]
        exact List.mem_append_left _ (List.mem_cons_self _ _)
      have hok := alloc_slot_in_allocOk b q st stf hinv₁ hmemq hnf₁
        (fun x hx => hheap₁ x (hinv.lt_next x hx)) howned₁
      rw [hrun]
      refine ⟨?_, hok⟩
      intro hnone
      obtain ⟨l₁, l₂, hfl⟩ := hinv₁.pool_inv q hmemq
      obtain ⟨i, st₂, hrun₂, -⟩ := alloc_slot_in_spec b q stf hfl hnf₁
      rw [hrun₂] at hnone
      simp at hnone
  rcases hps : st.pools with _ | ⟨p0, rest0⟩
  · rcases hsetup : st.setup with _ | _
    · exact hfail (by simp [alloc_slot, hps, hsetup])
    · refine hfind_case hsetup ⟨?_, ?_⟩
      · intro st' hf
        simp [alloc_slot, hps, hsetup, hf]
      · intro q st' hf
        simp [alloc_slot, hps, hsetup, hf]
  · rcases hfull : is_full_pool (st.heap p0) with _ | _
    · -- hot path: allocate in the ring head
      have hmem : p0 ∈ owned st := by
        rw [owned, hps]
        exact List.mem_append_left _ (List.mem_cons_self _ _)
      have hok := alloc_slot_in_allocOk b p0 st st hinv hmem hfull
        (fun x _ => rfl) (fun x hx => hx)
      have hrun : alloc_slot b st = alloc_slot_in b p0 st := by
        simp [alloc_slot, hps, hfull]
      rw [hrun]
      refine ⟨?_, hok⟩
      intro hnone
      obtain ⟨l₁, l₂, hfl⟩ := hinv.pool_inv p0 hmem
      obtain ⟨i, st₂, hrun₂, -⟩ := alloc_slot_in_spec b p0 st hfl hfull
      rw [hrun₂] at hnone
      simp at hnone
    · rcases hsetup : st.setup with _ | _
      · exact hfail (by simp [alloc_slot, hps, hsetup, hfull])
      · refine hfind_case hsetup ⟨?_, ?_⟩
        · intro st' hf
          simp [alloc_slot, hps, hsetup, hfull, hf]
        · intro q st' hf
          simp [alloc_slot, hps, hsetup, hfull, hf]

/-- rem_boxroot_create preserves the global invariant; on success it
fills exactly one slot of one pool (bumping that pool's alloc_count by
one) and leaves every other owned pool untouched. -/
theorem rem_boxroot_create_spec (v : Val) (st : State) (hinv : Inv st) :
    Inv (rem_boxroot_create v st).2 ∧
    (∀ q ∈ owned st, q ∈ owned (rem_boxroot_create v st).2) ∧
    ((rem_boxroot_create v st).1 = none →
      ∀ q ∈ owned st, (rem_boxroot_create v st).2.heap q = st.heap q) ∧
    (∀ p i, (rem_boxroot_create v st).1 = some (p, i) →
      (∀ q ∈ owned st, q ≠ p → (rem_boxroot_create v st).2.heap q = st.heap q) ∧
      (p ∈ owned st →
        ((rem_boxroot_create v st).2.heap p).hd.alloc_count =
          (st.heap p).hd.alloc_count + 1) ∧
      p ∈ owned (rem_boxroot_create v st).2 ∧ i < CAP ∧
      ((rem_boxroot_create v st).2.heap p).roots i = Slot.full v) := by
  rcases halloc : alloc_slot (is_young_block v) st with ⟨r, sta⟩
  obtain ⟨hnone, hsome⟩ := alloc_slot_spec (is_young_block v) st hinv
  rw [halloc] at hnone hsome
  dsimp only at hnone hsome
  rcases r with _ | ⟨p, i⟩
  · have hrun : rem_boxroot_create v st = (none, sta) := by
      simp [rem_boxroot_create, halloc]
    rw [hrun]
    obtain ⟨hi, hh, ho⟩ := hnone rfl
    refine ⟨hi, ho, fun _ => hh, ?_⟩
    intro p i hcon
    simp at hcon
  · obtain ⟨hlt, hnd, hlt_next, hpinvq, hpmem, hpinvp, howned, hheap, halloc_eq⟩ :=
      hsome p i rfl
    have hrun : rem_boxroot_create v st = (some (p, i),
        { sta with heap := Function.update sta.heap p (Pool.mk (sta.heap p).hd (Function.update (sta.heap p).roots i (Slot.full v))) }) := by
      simp [rem_boxroot_create, halloc]
    rw [hrun]
    refine ⟨⟨hnd, fun q hq => hlt_next q hq, ?_⟩, fun q hq => howned q hq, ?_, ?_⟩
    · intro q hq
      show PoolInv (Function.update sta.heap p (Pool.mk (sta.heap p).hd (Function.update (sta.heap p).roots i (Slot.full v))) q)
      by_cases hqp : q = p
      · subst hqp
        rw [Function.update_same]
        exact hpinvp v
      · rw [Function.update_noteq hqp]
        exact hpinvq q hq hqp
    · intro hcon
      simp at hcon
    · intro p' i' h
      simp only [Option.some.injEq, Prod.mk.injEq] at h
      obtain ⟨rfl, rfl⟩ := h
      refine ⟨?_, ?_, hpmem, hlt, ?_⟩
      · intro q hq hqp
        show Function.update sta.heap p _ q = st.heap q
        rw [Function.update_noteq hqp]
        exact hheap q hq hqp
      · intro hp
        show (Function.update sta.heap p (Pool.mk (sta.heap p).hd (Function.update (sta.heap p).roots i (Slot.full v))) p).hd.alloc_count = (st.heap p).hd.alloc_count + 1
        rw [Function.update_same]
        exact halloc_eq hp
      · show (Function.update sta.heap p (Pool.mk (sta.heap p).hd (Function.update (sta.heap p).roots i (Slot.full v))) p).roots i = Slot.full v
        rw [Function.update_same]
        show Function.update (sta.heap p).roots i (Slot.full v) i = Slot.full v
        rw [Function.update_same]

theorem remove_push_mem (p x : Nat) (pools full_pools : List Nat)
    (hx : x ∈ pools ++ full_pools) :
    x ∈ (ring_push_back p (pool_remove p pools full_pools).1).1 ++
      (pool_remove p pools full_pools).2.1 := by
  rw [ring_push_back_fst]
  by_cases hxp : x = p
  · subst hxp
    simp
  · rcases List.mem_append.mp hx with hmem | hmem
    · by_cases hp : p ∈ pools
      · simp only [pool_remove, hp, if_true]
        refine List.mem_append_left _ (List.mem_append_left _ ?_)
        exact (List.mem_erase_of_ne hxp).mpr hmem
      · by_cases hp2 : p ∈ full_pools
        · simp only [pool_remove, hp, hp2, if_true, if_false]
          exact List.mem_append_left _ (List.mem_append_left _ hmem)
        · simp only [pool_remove, hp, hp2, if_false]
          exact List.mem_append_left _ (List.mem_append_left _ hmem)
    · by_cases hp : p ∈ pools
      · simp only [pool_remove, hp, if_true]
        exact List.mem_append_right _ hmem
      · by_cases hp2 : p ∈ full_pools
        · simp only [pool_remove, hp, hp2, if_true, if_false]
          exact List.mem_append_right _ ((List.mem_erase_of_ne hxp).mpr hmem)
        · simp only [pool_remove, hp, hp2, if_false]
          exact List.mem_append_right _ hmem

/-- Execution shape of dealloc_slot: the handle's pool is rewritten in
place (free-list push plus alloc_count decrement) and the pool is moved
back to the non-full ring when the count hits the threshold. -/
theorem dealloc_run (p i : Nat) (st : State) :
    ∃ PL : Pool,
      dealloc_slot (p, i) st =
        (if PL.hd.alloc_count = (THRESH : Int) then
          { st with
            heap := Function.update st.heap p PL
            pools := (ring_push_back p (pool_remove p st.pools st.full_pools).1).1
            full_pools := (pool_remove p st.pools st.full_pools).2.1
            stats := { st.stats with
              ring_operations := st.stats.ring_operations +
                (pool_remove p st.pools st.full_pools).2.2 +
                (ring_push_back p (pool_remove p st.pools st.full_pools).1).2 } }
        else { st with heap := Function.update st.heap p PL }) ∧
      PL.hd.alloc_count = (st.heap p).hd.alloc_count - 1 ∧
      (∀ l₁ l₂, FreeLists (st.heap p) l₁ l₂ → i < CAP →
        ((st.heap p).roots i).isFull = true → PoolInv PL) := by
  by_cases hy : ((st.heap p).roots i).looksYoung = true
  · by_cases hemp : is_empty_free_list (st.heap p).hd.minor_free_list = true
    · refine ⟨Pool.mk (Header.mk (st.heap p).hd.major_free_list (Ptr.cell i) (Ptr.cell i) ((st.heap p).hd.alloc_count - 1)) (Function.update (st.heap p).roots i (Slot.free (st.heap p).hd.minor_free_list)), ?_, rfl, ?_⟩
      · simp [dealloc_slot, hy, hemp, free_list_push]
      · intro l₁ l₂ hfl hi hfull
        have hl₂ : l₂ = [] := hfl.minor_empty_iff.mp hemp
        subst hl₂
        exact ⟨l₁, [i], hfl.after_push_minor_empty hi hfull⟩
    · refine ⟨Pool.mk (Header.mk (st.heap p).hd.major_free_list (Ptr.cell i) (st.heap p).hd.last_minor_free_slot ((st.heap p).hd.alloc_count - 1)) (Function.update (st.heap p).roots i (Slot.free (st.heap p).hd.minor_free_list)), ?_, rfl, ?_⟩
      · simp [dealloc_slot, hy, hemp, free_list_push]
      · intro l₁ l₂ hfl hi hfull
        have hl₂ : l₂ ≠ [] := fun hc => hemp (hfl.minor_empty_iff.mpr hc)
        exact ⟨l₁, i :: l₂, hfl.after_push_minor_nonempty hi hfull hl₂⟩
  · refine ⟨Pool.mk (Header.mk (Ptr.cell i) (st.heap p).hd.minor_free_list (st.heap p).hd.last_minor_free_slot ((st.heap p).hd.alloc_count - 1)) (Function.update (st.heap p).roots i (Slot.free (st.heap p).hd.major_free_list)), ?_, rfl, ?_⟩
    · simp [dealloc_slot, hy, free_list_push]
    · intro l₁ l₂ hfl hi hfull
      exact ⟨i :: l₁, l₂, hfl.after_push_major hi hfull⟩

/-- Unconditional frame facts about dealloc_slot: only the handle's pool
is touched in the heap, its alloc_count drops by one, no pool is freed
and owned pools stay owned. -/
theorem dealloc_slot_spec (p i : Nat) (st : State) :
    (∀ q, q ≠ p → (dealloc_slot (p, i) st).heap q = st.heap q) ∧
    ((dealloc_slot (p, i) st).heap p).hd.alloc_count =
      (st.heap p).hd.alloc_count - 1 ∧
    (dealloc_slot (p, i) st).stats.live_pools = st.stats.live_pools ∧
    (dealloc_slot (p, i) st).freed = st.freed ∧
    (∀ q ∈ owned st, q ∈ owned (dealloc_slot (p, i) st)) := by
  obtain ⟨PL, hrun, halloc, -⟩ := dealloc_run p i st
  rw [hrun]
  by_cases hth : PL.hd.alloc_count = (THRESH : Int)
  · rw [if_pos hth]
    refine ⟨?_, ?_, rfl, rfl, ?_⟩
    · intro q hq
      show Function.update st.heap p PL q = st.heap q
      rw [Function.update_noteq hq]
    · show (Function.update st.heap p PL p).hd.alloc_count = _
      rw [Function.update_same]
      exact halloc
    · intro q hq
      exact remove_push_mem p q st.pools st.full_pools hq
  · rw [if_neg hth]
    refine ⟨?_, ?_, rfl, rfl, ?_⟩
    · intro q hq
      show Function.update st.heap p PL q = st.heap q
      rw [Function.update_noteq hq]
    · show (Function.update st.heap p PL p).hd.alloc_count = _
      rw [Function.update_same]
      exact halloc
    · intro q hq
      exact hq

/-- dealloc_slot of a live handle preserves the global invariant. -/
theorem dealloc_slot_inv (p i : Nat) (st : State) (hinv : Inv st)
    (hmem : p ∈ owned st) (hi : i < CAP)
    (hfull : ((st.heap p).roots i).isFull = true) :
    Inv (dealloc_slot (p, i) st) := by
  obtain ⟨PL, hrun, -, hpinv⟩ := dealloc_run p i st
  obtain ⟨l₁, l₂, hfl⟩ := hinv.pool_inv p hmem
  have hPL : PoolInv PL := hpinv l₁ l₂ hfl hi hfull
  rw [hrun]
  by_cases hth : PL.hd.alloc_count = (THRESH : Int)
  · rw [if_pos hth]
    have hperm := remove_push_perm p st.pools st.full_pools hmem
    have hperm' : ((ring_push_back p (pool_remove p st.pools st.full_pools).1).1 ++
        (pool_remove p st.pools st.full_pools).2.1).Perm (owned st) := by
      rw [ring_push_back_fst]
      exact hperm
    refine ⟨?_, ?_, ?_⟩
    · exact hperm'.symm.nodup hinv.nodup
    · intro q hq
      exact hinv.lt_next q (hperm'.mem_iff.mp hq)
    · intro q hq
      show PoolInv (Function.update st.heap p PL q)
      by_cases hqp : q = p
      · subst hqp
        rw [Function.update_same]
        exact hPL
      · rw [Function.update_noteq hqp]
        exact hinv.pool_inv q (hperm'.mem_iff.mp hq)
  · rw [if_neg hth]
    refine ⟨hinv.nodup, hinv.lt_next, ?_⟩
    intro q hq
    show PoolInv (Function.update st.heap p PL q)
    by_cases hqp : q = p
    · subst hqp
      rw [Function.update_same]
      exact hPL
    · rw [Function.update_noteq hqp]
      exact hinv.pool_inv q hq

/-- rem_boxroot_modify returns the caller's handle unchanged, overwrites
exactly the handle's cell with the new payload, and touches no other
cell, no pool header and no ring. -/
theorem rem_boxroot_modify_spec (root : Handle) (v : Val) (st : State) :
    (rem_boxroot_modify root v st).2 = root ∧
    ((rem_boxroot_modify root v st).1.heap root.1).roots root.2 = Slot.full v ∧
    (∀ j, j ≠ root.2 →
      ((rem_boxroot_modify root v st).1.heap root.1).roots j =
        (st.heap root.1).roots j) ∧
    ((rem_boxroot_modify root v st).1.heap root.1).hd = (st.heap root.1).hd ∧
    (∀ q, q ≠ root.1 →
      (rem_boxroot_modify root v st).1.heap q = st.heap q) ∧
    (rem_boxroot_modify root v st).1.pools = st.pools ∧
    (rem_boxroot_modify root v st).1.full_pools = st.full_pools ∧
    (rem_boxroot_modify root v st).1.stats = st.stats := by
  obtain ⟨p, i⟩ := root
  by_cases hv : is_young_block v = true
  · by_cases hold : ((st.heap p).roots i).looksYoung = true
    · have hrun : rem_boxroot_modify (p, i) v st =
          ({ st with heap := Function.update st.heap p (Pool.mk (st.heap p).hd (Function.update (st.heap p).roots i (Slot.full v))) }, (p, i)) := by
        simp [rem_boxroot_modify, hv, hold]
      rw [hrun]
      refine ⟨rfl, ?_, ?_, ?_, ?_, rfl, rfl, rfl⟩
      · show (Function.update st.heap p _ p).roots i = _
        rw [Function.update_same]
        exact Function.update_same _ _ _
      · intro j hj
        show (Function.update st.heap p _ p).roots j = _
        rw [Function.update_same]
        exact Function.update_noteq hj _ _
      · show (Function.update st.heap p _ p).hd = _
        rw [Function.update_same]
      · intro q hq
        show Function.update st.heap p _ q = _
        rw [Function.update_noteq hq]
    · have hrun : rem_boxroot_modify (p, i) v st =
          ({ st with heap := Function.update st.heap p (Pool.mk (st.heap p).hd (Function.update (st.heap p).roots i (Slot.full v))), rem_set := st.rem_set ++ [(p, i)] }, (p, i)) := by
        simp [rem_boxroot_modify, hv, hold, remember]
      rw [hrun]
      refine ⟨rfl, ?_, ?_, ?_, ?_, rfl, rfl, rfl⟩
      · show (Function.update st.heap p _ p).roots i = _
        rw [Function.update_same]
        exact Function.update_same _ _ _
      · intro j hj
        show (Function.update st.heap p _ p).roots j = _
        rw [Function.update_same]
        exact Function.update_noteq hj _ _
      · show (Function.update st.heap p _ p).hd = _
        rw [Function.update_same]
      · intro q hq
        show Function.update st.heap p _ q = _
        rw [Function.update_noteq hq]
  · have hrun : rem_boxroot_modify (p, i) v st =
        ({ st with heap := Function.update st.heap p (Pool.mk (st.heap p).hd (Function.update (st.heap p).roots i (Slot.full v))) }, (p, i)) := by
      simp [rem_boxroot_modify, hv]
    rw [hrun]
    refine ⟨rfl, ?_, ?_, ?_, ?_, rfl, rfl, rfl⟩
    · show (Function.update st.heap p _ p).roots i = _
      rw [Function.update_same]
      exact Function.update_same _ _ _
    · intro j hj
      show (Function.update st.heap p _ p).roots j = _
      rw [Function.update_same]
      exact Function.update_noteq hj _ _
    · show (Function.update st.heap p _ p).hd = _
      rw [Function.update_same]
    · intro q hq
      show Function.update st.heap p _ q = _
      rw [Function.update_noteq hq]

/-- rem_boxroot_modify of a live handle preserves the global invariant. -/
theorem rem_boxroot_modify_inv (root : Handle) (v : Val) (st : State)
    (hinv : Inv st) (hfull : ((st.heap root.1).roots root.2).isFull = true) :
    Inv (rem_boxroot_modify root v st).1 := by
  obtain ⟨-, hwrite, hother, hhd, hheap, hpools, hfp, -⟩ :=
    rem_boxroot_modify_spec root v st
  have howned : owned (rem_boxroot_modify root v st).1 = owned st := by
    rw [owned, owned, hpools, hfp]
  refine ⟨?_, ?_, ?_⟩
  · rw [howned]; exact hinv.nodup
  · intro q hq
    rw [howned] at hq
    have : (rem_boxroot_modify root v st).1.next_id = st.next_id := by
      obtain ⟨p, i⟩ := root
      by_cases hv : is_young_block v = true
      · by_cases hold : ((st.heap p).roots i).looksYoung = true
        · simp [rem_boxroot_modify, hv, hold]
        · simp [rem_boxroot_modify, hv, hold, remember]
      · simp [rem_boxroot_modify, hv]
    rw [this]
    exact hinv.lt_next q hq
  · intro q hq
    rw [howned] at hq
    by_cases hqp : q = root.1
    · rw [hqp]
      rw [hqp] at hq
      obtain ⟨l₁, l₂, hfl⟩ := hinv.pool_inv root.1 hq
      refine ⟨l₁, l₂, ?_⟩
      have hwf := hfl.write_full hfull v
      have hpool : (rem_boxroot_modify root v st).1.heap root.1 =
          { st.heap root.1 with
            roots := Function.update (st.heap root.1).roots root.2 (Slot.full v) } := by
        have hr : ∀ j, ((rem_boxroot_modify root v st).1.heap root.1).roots j =
            (Function.update (st.heap root.1).roots root.2 (Slot.full v)) j := by
          intro j
          by_cases hj : j = root.2
          · rw [hj, hwrite, Function.update_same]
          · rw [hother j hj, Function.update_noteq hj]
        rcases hpq : (rem_boxroot_modify root v st).1.heap root.1 with ⟨hd1, roots1⟩
        rw [hpq] at hr hhd
        simp only at hr hhd
        rw [hhd]
        congr 1
        funext j
        exact hr j
      rw [hpool]
      exact hwf
    · rw [hheap q hqp]
      exact hinv.pool_inv q hq

/-- The global invariant holds initially, after setup, and is preserved
by every API step. -/
theorem step_inv (st : State) (op : Op) (hinv : Inv st) : Inv (step st op) := by
  cases op with
  | create v => exact (rem_boxroot_create_spec v st hinv).1
  | delete p i =>
    rw [step]
    by_cases hl : is_live st p i = true
    · rw [if_pos hl]
      simp only [is_live, Bool.decide_and, Bool.and_eq_true, decide_eq_true_eq] at hl
      exact dealloc_slot_inv p i st hinv hl.1 hl.2.1 hl.2.2
    · rw [if_neg (by simpa using hl)]
      exact hinv
  | modify p i v =>
    rw [step]
    by_cases hl : is_live st p i = true
    · rw [if_pos hl]
      simp only [is_live, Bool.decide_and, Bool.and_eq_true, decide_eq_true_eq] at hl
      exact rem_boxroot_modify_inv (p, i) v st hinv hl.2.2
    · rw [if_neg (by simpa using hl)]
      exact hinv

theorem runOps_inv (ops : List Op) (st : State) (hinv : Inv st) :
    Inv (runOps ops st) := by
  induction ops generalizing st with
  | nil => exact hinv
  | cons op rest ih => exact ih _ (step_inv st op hinv)

theorem ready_owned (orc : List Bool) : owned (ready orc) = [] := by
  simp [ready, rem_boxroot_setup, init, owned]

theorem ready_inv (orc : List Bool) : Inv (ready orc) := by
  refine ⟨?_, ?_, ?_⟩ <;> rw [ready_owned]
  · exact List.nodup_nil
  · intro p hp; cases hp
  · intro p hp; cases hp

theorem fulls_zero (roots : Nat → Slot) (idx : Nat) : fulls roots idx 0 = [] := rfl

theorem fulls_succ (roots : Nat → Slot) (idx k : Nat) :
    fulls roots idx (k + 1) =
      (if (roots idx).isFull then [idx] else []) ++ fulls roots (idx + 1) k := by
  rw [fulls, fulls, List.range_succ_eq_map, List.map_cons, List.filter_cons,
    List.map_map]
  have hfun : ((fun t => idx + t) ∘ Nat.succ) = fun t => (idx + 1) + t := by
    funext t
    simp only [Function.comp]
    omega
  rw [hfun]
  simp only [Nat.add_zero]
  rcases hf : (roots idx).isFull with _ | _ <;> simp [hf]

theorem fulls_update_lt (roots : Nat → Slot) (j : Nat) (s : Slot)
    (idx k : Nat) (hj : j < idx) :
    fulls (Function.update roots j s) idx k = fulls roots idx k := by
  rw [fulls, fulls]
  refine List.filter_congr ?_
  intro x hx
  simp only [List.mem_map, List.mem_range] at hx
  obtain ⟨t, -, rfl⟩ := hx
  rw [Function.update_noteq (by omega)]

/-- Correctness of the major-collection walk: it visits exactly the full
slots in address order, and the work counter is the position right after
the last full slot (CAP when the walk runs to the end), i.e. the walk
stops as soon as all full slots have been visited. -/
theorem scan_walk_spec (action : Val → Val) :
    ∀ (k idx : Nat) (roots : Nat → Slot) (rem : Int),
      idx + k = CAP →
      rem = ((fulls roots idx k).length : Int) →
      (scan_walk action roots k idx rem).2.1 = fulls roots idx k ∧
      idx ≤ (scan_walk action roots k idx rem).2.2 ∧
      (scan_walk action roots k idx rem).2.2 ≤ CAP ∧
      fulls roots idx ((scan_walk action roots k idx rem).2.2 - idx) =
        fulls roots idx k ∧
      (∀ m, idx ≤ m → m < (scan_walk action roots k idx rem).2.2 →
        (fulls roots idx (m - idx)).length < (fulls roots idx k).length) := by
  intro k
  induction k with
  | zero =>
    intro idx roots rem hk hrem
    refine ⟨rfl, ?_, ?_, ?_, ?_⟩
    · show idx ≤ CAP
      omega
    · show CAP ≤ CAP
      exact le_refl _
    · show fulls roots idx (CAP - idx) = fulls roots idx 0
      have hz : CAP - idx = 0 := by omega
      rw [hz]
    · intro m hm hmlt
      replace hmlt : m < CAP := hmlt
      omega
  | succ k ih =>
    intro idx roots rem hk hrem
    by_cases hrem0 : rem = 0
    · have hfe : fulls roots idx (k + 1) = [] := by
        refine List.eq_nil_of_length_eq_zero ?_
        omega
      have hrun : scan_walk action roots (k + 1) idx rem = (roots, [], idx) := by
        simp [scan_walk, hrem0]
      rw [hrun]
      refine ⟨?_, ?_, ?_, ?_, ?_⟩
      · show ([] : List Nat) = fulls roots idx (k + 1)
        rw [hfe]
      · show idx ≤ idx
        exact le_refl _
      · show idx ≤ CAP
        omega
      · show fulls roots idx (idx - idx) = fulls roots idx (k + 1)
        rw [Nat.sub_self, fulls_zero, hfe]
      · intro m hm hmlt
        replace hmlt : m < idx := hmlt
        omega
    · rcases hslot : roots idx with v | nxt
      · -- full slot: invoke the action and continue
        have hfull : (roots idx).isFull = true := by
          rw [hslot]; rfl
        have hdec : fulls roots idx (k + 1) = idx :: fulls roots (idx + 1) k := by
          rw [fulls_succ, hfull]
          simp
        have hupd : ∀ n, fulls (Function.update roots idx (Slot.full (action v)))
            (idx + 1) n = fulls roots (idx + 1) n := fun n =>
          fulls_update_lt roots idx _ (idx + 1) n (by omega)
        have hrun : scan_walk action roots (k + 1) idx rem =
            ((scan_walk action (Function.update roots idx (Slot.full (action v))) k (idx + 1) (rem - 1)).1,
             idx :: (scan_walk action (Function.update roots idx (Slot.full (action v))) k (idx + 1) (rem - 1)).2.1,
             (scan_walk action (Function.update roots idx (Slot.full (action v))) k (idx + 1) (rem - 1)).2.2) := by
          simp [scan_walk, hrem0, hslot]
        obtain ⟨ihv, ihlo, ihhi, ihcov, ihmin⟩ :=
          ih (idx + 1) (Function.update roots idx (Slot.full (action v)))
            (rem - 1) (by omega)
            (by
              rw [hupd k]
              rw [hdec] at hrem
              rw [List.length_cons] at hrem
              push_cast at hrem ⊢
              omega)
        rw [hrun]
        set R := scan_walk action (Function.update roots idx (Slot.full (action v)))
          k (idx + 1) (rem - 1) with hR
        rw [hupd k] at ihcov
        refine ⟨?_, ?_, ?_, ?_, ?_⟩
        · show idx :: R.2.1 = fulls roots idx (k + 1)
          rw [hdec, ihv, hupd k]
        · show idx ≤ R.2.2
          omega
        · show R.2.2 ≤ CAP
          exact ihhi
        · show fulls roots idx (R.2.2 - idx) = fulls roots idx (k + 1)
          have hw1 : R.2.2 - idx = (R.2.2 - (idx + 1)) + 1 := by omega
          rw [hw1, fulls_succ, hfull, hdec]
          rw [← hupd (R.2.2 - (idx + 1))]
          rw [ihcov]
          simp
        · intro m hm hmlt
          replace hmlt : m < R.2.2 := hmlt
          rcases Nat.eq_or_lt_of_le hm with rfl | hmgt
          · rw [Nat.sub_self, fulls_zero, hdec]
            simp
          · have hm1 : m - idx = (m - (idx + 1)) + 1 := by omega
            rw [hm1, fulls_succ, hfull, hdec]
            have hmi := ihmin m (by omega) hmlt
            rw [hupd, hupd] at hmi
            simpa using hmi
      · -- free slot: skip without invoking the action
        have hfree : (roots idx).isFull = false := by
          rw [hslot]; rfl
        have hdec : fulls roots idx (k + 1) = fulls roots (idx + 1) k := by
          rw [fulls_succ, hfree]
          simp
        have hrun : scan_walk action roots (k + 1) idx rem =
            scan_walk action roots k (idx + 1) rem := by
          simp [scan_walk, hrem0, hslot]
        obtain ⟨ihv, ihlo, ihhi, ihcov, ihmin⟩ :=
          ih (idx + 1) roots rem (by omega) (by rw [← hdec]; exact hrem)
        rw [hrun]
        set R := scan_walk action roots k (idx + 1) rem with hR
        refine ⟨?_, ?_, ?_, ?_, ?_⟩
        · rw [ihv, hdec]
        · show idx ≤ R.2.2
          omega
        · exact ihhi
        · show fulls roots idx (R.2.2 - idx) = fulls roots idx (k + 1)
          have hw1 : R.2.2 - idx = (R.2.2 - (idx + 1)) + 1 := by omega
          rw [hw1, fulls_succ, hfree, hdec]
          simpa using ihcov
        · intro m hm hmlt
          replace hmlt : m < R.2.2 := hmlt
          rcases Nat.eq_or_lt_of_le hm with rfl | hmgt
          · rw [Nat.sub_self, fulls_zero]
            have hL : (fulls roots idx (k + 1)).length ≠ 0 := by
              intro hc
              apply hrem0
              rw [hrem, hc]
              rfl
            simp only [List.length_nil]
            omega
          · have hm1 : m - idx = (m - (idx + 1)) + 1 := by omega
            rw [hm1, fulls_succ, hfree, hdec]
            have hmi := ihmin m (by omega) hmlt
            simpa using hmi

theorem Slot.isFull_eq_not_isFree (s : Slot) : s.isFull = ! s.isFree := by
  cases s <;> rfl

/-- Under the pool invariant the number of full slots in the array
equals alloc_count. -/
theorem fulls_length (pl : Pool) {l₁ l₂ : List Nat}
    (hfl : FreeLists pl l₁ l₂) :
    ((fulls pl.roots 0 CAP).length : Int) = pl.hd.alloc_count := by
  have hmapid : (List.range CAP).map (fun t => 0 + t) = List.range CAP := by
    refine List.ext_getElem (by simp) ?_
    intro n h1 h2
    simp
  have hfree_len : ((List.range CAP).filter
      (fun i => (pl.roots i).isFree)).length = (l₁ ++ l₂).length := by
    have hnd₁ : ((List.range CAP).filter (fun i => (pl.roots i).isFree)).Nodup :=
      (List.nodup_range CAP).filter _
    have hsub₁ : (List.range CAP).filter (fun i => (pl.roots i).isFree) ⊆ l₁ ++ l₂ := by
      intro x hx
      rw [List.mem_filter, List.mem_range] at hx
      exact (hfl.mem_iff x).mpr ⟨hx.1, hx.2⟩
    have hsub₂ : l₁ ++ l₂ ⊆ (List.range CAP).filter (fun i => (pl.roots i).isFree) := by
      intro x hx
      rw [List.mem_filter, List.mem_range]
      exact ((hfl.mem_iff x).mp hx : _)
    have h₁ := (hnd₁.subperm hsub₁).length_le
    have h₂ := (hfl.nodup.subperm hsub₂).length_le
    omega
  have hpart := List.length_eq_length_filter_add
    (l := List.range CAP) (fun i => (pl.roots i).isFull)
  have hcompl : (List.range CAP).filter (fun i => ! (pl.roots i).isFull) =
      (List.range CAP).filter (fun i => (pl.roots i).isFree) := by
    refine List.filter_congr ?_
    intro x _
    rw [Slot.isFull_eq_not_isFree, Bool.not_not]
  rw [hcompl, hfree_len, List.length_range] at hpart
  rw [fulls, hmapid, hfl.alloc_eq]
  have hle := hfl.len_le
  omega

/-- Claim C1: during a minor collection the scan callback does no slot
visit: the action-invocation list of scan_pool is empty and the work
counters are zero; when the minor free list is non-empty it is spliced
onto the head of the major free list through the stored tail pointer
(the new major free list chains the old minor list followed by the old
major list) and the minor free list becomes empty; an empty minor free
list leaves the pool untouched. -/
theorem claim_C1_minor_scan_visits_nothing (action : Val → Val) (pl : Pool)
    {l₁ l₂ : List Nat} (hfl : FreeLists pl l₁ l₂) :
    (scan_pool action true pl).2.1 = [] ∧
    (scan_pool action true pl).2.2.1 = 0 ∧
    (scan_pool action true pl).2.2.2 = 0 ∧
    (l₂ = [] → (scan_pool action true pl).1 = pl) ∧
    (l₂ ≠ [] →
      ((scan_pool action true pl).1).hd.minor_free_list = empty_free_list ∧
      Chain ((scan_pool action true pl).1).roots
        ((scan_pool action true pl).1).hd.major_free_list (l₂ ++ l₁) ∧
      ((scan_pool action true pl).1).hd.alloc_count = pl.hd.alloc_count) := by
  by_cases hl₂ : l₂ = []
  · have hemp : is_empty_free_list pl.hd.minor_free_list = true :=
      hfl.minor_empty_iff.mpr hl₂
    have hrun : scan_pool action true pl = (pl, [], 0, 0) := by
      simp [scan_pool, hemp]
    rw [hrun]
    exact ⟨rfl, rfl, rfl, fun _ => rfl, fun hne => absurd hl₂ hne⟩
  · have hemp : is_empty_free_list pl.hd.minor_free_list = false := by
      rw [Bool.eq_false_iff]
      intro hc
      exact hl₂ (hfl.minor_empty_iff.mp hc)
    obtain ⟨j, hj⟩ : ∃ j, l₂.getLast? = some j := by
      cases l₂ with
      | nil => exact absurd rfl hl₂
      | cons b bs => exact ⟨_, List.getLast?_eq_getLast_of_ne_nil (by simp)⟩
    have hlast : pl.hd.last_minor_free_slot = Ptr.cell j := hfl.last_eq j hj
    have hrun : scan_pool action true pl =
        (Pool.mk (Header.mk pl.hd.minor_free_list empty_free_list pl.hd.last_minor_free_slot pl.hd.alloc_count) (Function.update pl.roots j (Slot.free pl.hd.major_free_list)), [], 0, 0) := by
      simp [scan_pool, hemp, hlast]
    rw [hrun]
    refine ⟨rfl, rfl, rfl, fun hc => absurd hc hl₂, fun _ => ⟨rfl, ?_, rfl⟩⟩
    show Chain (Function.update pl.roots j (Slot.free pl.hd.major_free_list))
      pl.hd.minor_free_list (l₂ ++ l₁)
    have hnd₂ : l₂.Nodup := hfl.nodup.of_append_right
    have hdisj : ∀ x ∈ l₂, x ∉ l₁ := by
      intro x hx hx₁
      exact (List.disjoint_of_nodup_append hfl.nodup) hx₁ hx
    exact hfl.chain_minor.splice hfl.chain_major hnd₂ hdisj hj

/-- Claim C2: during a major collection scan_pool visits exactly the
full slots of the pool, in address order, invoking the action once per
full slot — alloc_count invocations in total — and never on a free
slot; the walk stops (work counter) as soon as alloc_count full slots
have been seen. -/
theorem claim_C2_major_scan_visits_full_slots (action : Val → Val) (pl : Pool)
    {l₁ l₂ : List Nat} (hfl : FreeLists pl l₁ l₂) :
    (scan_pool action false pl).2.1 = fulls pl.roots 0 CAP ∧
    (((scan_pool action false pl).2.1).length : Int) = pl.hd.alloc_count ∧
    (∀ i ∈ (scan_pool action false pl).2.1,
      i < CAP ∧ (pl.roots i).isFull = true) ∧
    (∀ i, i < CAP → (pl.roots i).isFull = true →
      i ∈ (scan_pool action false pl).2.1) ∧
    (∀ i ∈ (scan_pool action false pl).2.1, (pl.roots i).isFree = false) ∧
    (scan_pool action false pl).2.1.Nodup ∧
    (((scan_pool action false pl).2.2.1 : Int) = pl.hd.alloc_count) ∧
    (scan_pool action false pl).2.2.2 ≤ CAP ∧
    ((fulls pl.roots 0 ((scan_pool action false pl).2.2.2)).length : Int) =
      pl.hd.alloc_count ∧
    (∀ m, m < (scan_pool action false pl).2.2.2 →
      ((fulls pl.roots 0 m).length : Int) < pl.hd.alloc_count) := by
  have hlen := fulls_length pl hfl
  obtain ⟨hv, -, hhi, hcov, hmin⟩ := scan_walk_spec action CAP 0 pl.roots
    pl.hd.alloc_count (by omega) (by omega)
  have hrun : scan_pool action false pl =
      ({ pl with roots := (scan_walk action pl.roots CAP 0 pl.hd.alloc_count).1 },
       (scan_walk action pl.roots CAP 0 pl.hd.alloc_count).2.1,
       pl.hd.alloc_count.toNat,
       (scan_walk action pl.roots CAP 0 pl.hd.alloc_count).2.2) := by
    simp [scan_pool]
  rw [hrun]
  have halloc_nonneg : 0 ≤ pl.hd.alloc_count := by
    have := hfl.len_le
    rw [hfl.alloc_eq]
    omega
  have hmem : ∀ i, i ∈ fulls pl.roots 0 CAP ↔ i < CAP ∧ (pl.roots i).isFull = true := by
    intro i
    rw [fulls, List.mem_filter, List.mem_map]
    constructor
    · rintro ⟨⟨t, ht, rfl⟩, hf⟩
      rw [List.mem_range] at ht
      exact ⟨by omega, hf⟩
    · rintro ⟨hi, hf⟩
      exact ⟨⟨i, by rw [List.mem_range]; omega, by omega⟩, hf⟩
  refine ⟨hv, ?_, ?_, ?_, ?_, ?_, ?_, hhi, ?_, ?_⟩
  · rw [hv]; omega
  · intro i hi
    rw [hv] at hi
    exact (hmem i).mp hi
  · intro i hi hf
    rw [hv]
    exact (hmem i).mpr ⟨hi, hf⟩
  · intro i hi
    rw [hv] at hi
    have := ((hmem i).mp hi).2
    rw [Slot.isFull_eq_not_isFree] at this
    cases hfr : (pl.roots i).isFree
    · rfl
    · rw [hfr] at this; cases this
  · rw [hv, fulls]
    exact ((List.nodup_range CAP).map (fun a b h => by omega)).filter _
  · show ((pl.hd.alloc_count.toNat : Nat) : Int) = pl.hd.alloc_count
    exact Int.toNat_of_nonneg halloc_nonneg
  · have := hcov
    rw [Nat.sub_zero] at this
    rw [this]
    omega
  · intro m hm
    have := hmin m (by omega) hm
    rw [Nat.sub_zero] at this
    omega

/-- Claim C3: rem_boxroot_create takes its slot from the head pool,
popping the minor free list for a nursery payload (falling back to the
major list plus a remembered-set add), and popping the major free list
for a mature or immediate payload (falling back to the minor list with
no remembered-set operation). -/
theorem claim_C3_create_generational_choice (v : Val) (st : State) {p : Nat}
    {rest l₁ l₂ : List Nat} (hpools : st.pools = p :: rest)
    (hfl : FreeLists (st.heap p) l₁ l₂)
    (hnf : is_full_pool (st.heap p) = false) :
    ∃ i st', rem_boxroot_create v st = (some (p, i), st') ∧
      (is_young_block v = true →
        (l₂ ≠ [] → l₂.head? = some i ∧ st'.rem_set = st.rem_set) ∧
        (l₂ = [] → l₁.head? = some i ∧ st'.rem_set = st.rem_set ++ [(p, i)])) ∧
      (is_young_block v = false →
        st'.rem_set = st.rem_set ∧
        (l₁ ≠ [] → l₁.head? = some i) ∧
        (l₁ = [] → l₂.head? = some i)) := by
  obtain ⟨i, sta, hrun₂, hlt, hp₂, hfp₂, hnext₂, hsetup₂, horc₂, hfreed₂,
    hlog₂, hstats₂, hheap₂, halloc₂, hroots₂, hpinv₂, hcase⟩ :=
    alloc_slot_in_spec (is_young_block v) p st hfl hnf
  have hstep : alloc_slot (is_young_block v) st =
      alloc_slot_in (is_young_block v) p st := by
    simp [alloc_slot, hpools, hnf]
  have hrun : alloc_slot (is_young_block v) st = (some (p, i), sta) := by
    rw [hstep, hrun₂]
  have hcreate : rem_boxroot_create v st = (some (p, i),
      { sta with heap := Function.update sta.heap p (Pool.mk (sta.heap p).hd (Function.update (sta.heap p).roots i (Slot.full v))) }) := by
    simp [rem_boxroot_create, hrun]
  refine ⟨i, _, hcreate, ?_, ?_⟩
  · intro hy
    rw [hy] at hcase
    rw [if_pos rfl] at hcase
    constructor
    · intro hne
      rw [if_neg hne] at hcase
      exact ⟨hcase.2, hcase.1⟩
    · intro hemp
      rw [if_pos hemp] at hcase
      exact ⟨hcase.2, hcase.1⟩
  · intro hy
    rw [hy] at hcase
    rw [if_neg (by simp)] at hcase
    refine ⟨hcase.1, ?_, ?_⟩
    · intro hne
      rw [if_neg hne] at hcase
      exact hcase.2
    · intro hemp
      rw [if_pos hemp] at hcase
      exact hcase.2

/-- Claim C4: across any sequence of rem_boxroot_modify calls on a
handle (no delete/create in between) the handle is returned unchanged,
the same cell is overwritten in place with the latest payload, and no
other cell, pool header or ring is touched. -/
theorem claim_C4_modify_handle_stable (vs : List Val) (st : State)
    (root : Handle) :
    (run_modifies vs st root).2 = root ∧
    (∀ q, q ≠ root.1 → (run_modifies vs st root).1.heap q = st.heap q) ∧
    (∀ j, j ≠ root.2 →
      ((run_modifies vs st root).1.heap root.1).roots j =
        (st.heap root.1).roots j) ∧
    ((run_modifies vs st root).1.heap root.1).hd = (st.heap root.1).hd ∧
    (run_modifies vs st root).1.pools = st.pools ∧
    (run_modifies vs st root).1.full_pools = st.full_pools ∧
    (∀ v, vs.getLast? = some v →
      ((run_modifies vs st root).1.heap root.1).roots root.2 = Slot.full v) := by
  induction vs generalizing st with
  | nil =>
    refine ⟨rfl, fun q _ => rfl, fun j _ => rfl, rfl, rfl, rfl, ?_⟩
    intro v hv
    simp at hv
  | cons v vrest ih =>
    obtain ⟨hhandle, hwrite, hother, hhd, hheap, hpools, hfp, -⟩ :=
      rem_boxroot_modify_spec root v st
    have hunfold : run_modifies (v :: vrest) st root =
        run_modifies vrest (rem_boxroot_modify root v st).1
          (rem_boxroot_modify root v st).2 := by
      rw [run_modifies, run_modifies, List.foldl_cons]
    have hunfold₂ : run_modifies (v :: vrest) st root =
        run_modifies vrest (rem_boxroot_modify root v st).1 root := by
      rw [hunfold, hhandle]
    obtain ⟨ih1, ih2, ih3, ih4, ih5, ih6, ih7⟩ :=
      ih (rem_boxroot_modify root v st).1
    rw [hunfold₂]
    refine ⟨ih1, ?_, ?_, ?_, ?_, ?_, ?_⟩
    · intro q hq
      rw [ih2 q hq, hheap q hq]
    · intro j hj
      rw [ih3 j hj, hother j hj]
    · rw [ih4, hhd]
    · rw [ih5, hpools]
    · rw [ih6, hfp]
    · intro w hw
      cases vrest with
      | nil =>
        have hwv : v = w := by simpa using hw
        subst hwv
        have hemp : run_modifies ([] : List Val)
            (rem_boxroot_modify root v st).1 root =
            ((rem_boxroot_modify root v st).1, root) := rfl
        rw [hemp]
        exact hwrite
      | cons b bs =>
        rw [List.getLast?_cons_cons] at hw
        exact ih7 w hw

/-- Claim C5: after any sequence of API operations from a fresh setup,
every owned pool satisfies the free-list integrity properties: the two
free lists chain through exactly CAP - alloc_count cells, every
reachable cell is tagged free, and the list heads are the pool base
when empty — never NULL. -/
theorem claim_C5_free_list_integrity (orc : List Bool) (ops : List Op)
    (hops : ∀ op ∈ ops, op.isCreateOrDelete = true) :
    ∀ p ∈ owned (runOps ops (ready orc)),
      ∃ l₁ l₂,
        Chain ((runOps ops (ready orc)).heap p).roots
          ((runOps ops (ready orc)).heap p).hd.major_free_list l₁ ∧
        Chain ((runOps ops (ready orc)).heap p).roots
          ((runOps ops (ready orc)).heap p).hd.minor_free_list l₂ ∧
        (((l₁ ++ l₂).length : Int) =
          (CAP : Int) - ((runOps ops (ready orc)).heap p).hd.alloc_count) ∧
        (∀ i ∈ l₁ ++ l₂,
          i < CAP ∧ (((runOps ops (ready orc)).heap p).roots i).isFree = true) ∧
        ((runOps ops (ready orc)).heap p).hd.major_free_list ≠ Ptr.null ∧
        ((runOps ops (ready orc)).heap p).hd.minor_free_list ≠ Ptr.null ∧
        (l₁ = [] →
          ((runOps ops (ready orc)).heap p).hd.major_free_list = Ptr.base) ∧
        (l₂ = [] →
          ((runOps ops (ready orc)).heap p).hd.minor_free_list = Ptr.base) := by
  intro p hp
  obtain ⟨l₁, l₂, hfl⟩ :=
    (runOps_inv ops (ready orc) (ready_inv orc)).pool_inv p hp
  refine ⟨l₁, l₂, hfl.chain_major, hfl.chain_minor, ?_, ?_,
    hfl.chain_major.ne_null, hfl.chain_minor.ne_null, ?_, ?_⟩
  · rw [hfl.alloc_eq]
    omega
  · intro i hi
    exact (hfl.mem_iff i).mp hi
  · intro h
    exact (h ▸ hfl.chain_major).base_of_nil
  · intro h
    exact (h ▸ hfl.chain_minor).base_of_nil

theorem countH_nil (q : Nat) : countH [] q = 0 := rfl

theorem countH_none (hs : List (Option Handle)) (q : Nat) :
    countH (none :: hs) q = countH hs q := by
  rw [countH, countH, List.filterMap_cons_none rfl]

theorem countH_some (h : Handle) (hs : List (Option Handle)) (q : Nat) :
    countH (some h :: hs) q =
      countH hs q + (if h.1 = q then 1 else 0) := by
  rw [countH, countH,
    show List.filterMap id (some h :: hs) = h :: List.filterMap id hs from by simp,
    List.countP_cons]
  simp

/-- Effect of a create sequence on the allocation counts of the pools
owned before the sequence, provided every create succeeds. -/
theorem run_creates_alloc (vs : List Val) (st : State) (hinv : Inv st)
    (hsucc : ∀ h ∈ (run_creates vs st).1, h ≠ none) :
    Inv (run_creates vs st).2 ∧
    (∀ q ∈ owned st, q ∈ owned (run_creates vs st).2) ∧
    (∀ q ∈ owned st,
      ((run_creates vs st).2.heap q).hd.alloc_count =
        (st.heap q).hd.alloc_count + countH (run_creates vs st).1 q) := by
  induction vs generalizing st with
  | nil =>
    refine ⟨hinv, fun q hq => hq, ?_⟩
    intro q hq
    rw [show run_creates [] st = ([], st) from rfl, countH_nil]
    simp
  | cons v rest ih =>
    obtain ⟨hinv', howned', -, hsomefr⟩ := rem_boxroot_create_spec v st hinv
    have hunfold : run_creates (v :: rest) st =
        ((rem_boxroot_create v st).1 ::
          (run_creates rest (rem_boxroot_create v st).2).1,
         (run_creates rest (rem_boxroot_create v st).2).2) := rfl
    rcases hc : (rem_boxroot_create v st).1 with _ | ⟨p, i⟩
    · exfalso
      refine hsucc none ?_ rfl
      rw [hunfold, hc]
      exact List.mem_cons_self _ _
    · obtain ⟨hheap, halloc, hpmem, hlt, hroots⟩ := hsomefr p i hc
      obtain ⟨ih1, ih2, ih3⟩ := ih (rem_boxroot_create v st).2 hinv'
        (by
          intro h hm
          refine hsucc h ?_
          rw [hunfold]
          exact List.mem_cons_of_mem _ hm)
      rw [hunfold]
      refine ⟨ih1, ?_, ?_⟩
      · intro q hq
        exact ih2 q (howned' q hq)
      · intro q hq
        rw [hc, countH_some]
        rw [ih3 q (howned' q hq)]
        by_cases hqp : q = p
        · subst hqp
          rw [halloc hq]
          simp only [if_pos rfl]
          push_cast
          ring
        · rw [hheap q hq (by exact hqp)]
          rw [if_neg (fun he => hqp he.symm)]
          push_cast
          ring

/-- Effect of a delete sequence on allocation counts: each successful
handle's pool count drops by one per delete; live_pools is untouched. -/
theorem run_deletes_alloc (hs : List (Option Handle)) (st : State) :
    (∀ q, ((run_deletes hs st).heap q).hd.alloc_count =
      (st.heap q).hd.alloc_count - countH hs q) ∧
    (run_deletes hs st).stats.live_pools = st.stats.live_pools := by
  induction hs generalizing st with
  | nil =>
    refine ⟨fun q => ?_, rfl⟩
    rw [countH_nil]
    show (st.heap q).hd.alloc_count = (st.heap q).hd.alloc_count - ((0 : Nat) : Int)
    simp
  | cons h rest ih =>
    cases h with
    | none =>
      obtain ⟨ih1, ih2⟩ := ih st
      refine ⟨?_, ih2⟩
      intro q
      rw [show run_deletes (none :: rest) st = run_deletes rest st from rfl,
        ih1 q, countH_none]
    | some hd =>
      obtain ⟨p, i⟩ := hd
      obtain ⟨hframe, halloc, hlive, -, -⟩ := dealloc_slot_spec p i st
      obtain ⟨ih1, ih2⟩ := ih (rem_boxroot_delete (p, i) st)
      have hunfold : run_deletes (some (p, i) :: rest) st =
          run_deletes rest (rem_boxroot_delete (p, i) st) := rfl
      rw [hunfold]
      refine ⟨?_, by rw [ih2]; show (dealloc_slot (p, i) st).stats.live_pools = _; rw [hlive]⟩
      intro q
      rw [ih1 q, countH_some]
      simp only [rem_boxroot_delete]
      by_cases hq : q = p
      · subst hq
        rw [halloc]
        simp only [if_pos rfl]
        push_cast
        ring
      · rw [hframe q hq, if_neg (fun he => hq he.symm)]
        push_cast
        ring

/-- Claim C6 (amended): for any create/delete round trip in which every
create succeeds, every pool owned before the sequence gets its
alloc_count back; the live-pool count is restored exactly when the
creates allocated no fresh pool (live_pools unchanged by the creates).
(The unamended claim fails because stats.live_pools is never
decremented: a sequence whose creates allocate a pool leaves it
permanently higher.) -/
theorem claim_C6_amended_round_trip (st : State) (hinv : Inv st)
    (vs : List Val)
    (hsucc : ∀ h ∈ (run_creates vs st).1, h ≠ none) :
    (∀ q ∈ owned st,
      ((run_deletes (run_creates vs st).1 (run_creates vs st).2).heap q).hd.alloc_count =
        (st.heap q).hd.alloc_count) ∧
    ((run_creates vs st).2.stats.live_pools = st.stats.live_pools →
      (run_deletes (run_creates vs st).1 (run_creates vs st).2).stats.live_pools =
        st.stats.live_pools) := by
  obtain ⟨-, -, hcre⟩ := run_creates_alloc vs st hinv hsucc
  obtain ⟨hdel, hdlive⟩ :=
    run_deletes_alloc (run_creates vs st).1 (run_creates vs st).2
  refine ⟨?_, fun hlive => by rw [hdlive]; exact hlive⟩
  intro q hq
  rw [hdel q, hcre q hq]
  ring

set_option maxRecDepth 40000 in
/-- Claim C6 counterexample: from a fresh engine, one create followed by
its delete leaves live_pools at 1 although it was 0 before the sequence
(the pool allocated by the create is counted forever; live_pools is
never decremented), so the round trip does not restore the live-pool
count. -/
theorem claim_C6_counterexample :
    (ready []).stats.live_pools = 0 ∧
    (run_creates [Val.imm 0] (ready [])).1 = [some (0, 0)] ∧
    (run_deletes (run_creates [Val.imm 0] (ready [])).1
      (run_creates [Val.imm 0] (ready [])).2).stats.live_pools = 1 := by
  refine ⟨rfl, by decide, by decide⟩

/-- Shared walk lemma for free_all_pools. -/
theorem free_all_pools_walk_spec (l : List Nat) (st : State) :
    (free_all_pools_walk l st).pools = [] ∧
    (free_all_pools_walk l st).freed = st.freed ++ l ∧
    (free_all_pools_walk l st).full_pools = st.full_pools ∧
    (free_all_pools_walk l st).setup = st.setup := by
  induction l generalizing st with
  | nil => exact ⟨rfl, by simp [free_all_pools_walk], rfl, rfl⟩
  | cons p rest ih =>
    have hstep : free_all_pools_walk (p :: rest) st =
        free_all_pools_walk rest
          { st with
            pools := rest
            freed := st.freed ++ [p]
            stats := { st.stats with
              total_freed_pools := st.stats.total_freed_pools + 1
              ring_operations := st.stats.ring_operations +
                (if rest.isEmpty then 0 else 2) } } := rfl
    obtain ⟨ih1, ih2, ih3, ih4⟩ := ih
      { st with
        pools := rest
        freed := st.freed ++ [p]
        stats := { st.stats with
          total_freed_pools := st.stats.total_freed_pools + 1
          ring_operations := st.stats.ring_operations +
            (if rest.isEmpty then 0 else 2) } }
    rw [hstep]
    refine ⟨ih1, ?_, ih3, ih4⟩
    rw [ih2]
    simp

/-- Claim C7 evaluation: rem_boxroot_teardown frees exactly the pools of
the non-full ring — a pool sitting in the full ring is never passed to
bxr_free_pool and the full_pools ring head is left dangling — while
teardown without a prior setup is a no-op. -/
theorem claim_C7_teardown_skips_full_ring (st : State)
    (hsetup : st.setup = true) :
    (rem_boxroot_teardown st).pools = [] ∧
    (rem_boxroot_teardown st).freed = st.freed ++ st.pools ∧
    (rem_boxroot_teardown st).full_pools = st.full_pools ∧
    (∀ q, q ∈ st.full_pools → q ∉ st.freed → q ∉ st.pools →
      q ∉ (rem_boxroot_teardown st).freed) ∧
    (∀ st₂ : State, st₂.setup = false → rem_boxroot_teardown st₂ = st₂) := by
  have hrun : rem_boxroot_teardown st =
      free_all_pools_walk st.pools { st with setup := false } := by
    simp [rem_boxroot_teardown, hsetup, free_all_pools]
  obtain ⟨h1, h2, h3, h4⟩ :=
    free_all_pools_walk_spec st.pools { st with setup := false }
  rw [hrun]
  refine ⟨h1, by rw [h2], h3, ?_, ?_⟩
  · intro q hfull hfreed hpools hmem
    rw [h2] at hmem
    rcases List.mem_append.mp hmem with hmem | hmem
    · exact hfreed hmem
    · exact hpools hmem
  · intro st₂ h2'
    simp [rem_boxroot_teardown, h2']

/-- Shared lemma for claim C8: a create performed before setup returns
the null handle and emits one log message, leaving everything else
untouched. -/
theorem pre_setup_creates (vs : List Val) (st : State)
    (hsetup : st.setup = false) (hpools : st.pools = []) :
    (run_creates vs st).1 = List.replicate vs.length none ∧
    (run_creates vs st).2.log_count = st.log_count + vs.length ∧
    (run_creates vs st).2.setup = false ∧
    (run_creates vs st).2.pools = [] := by
  induction vs generalizing st with
  | nil => exact ⟨rfl, rfl, hsetup, hpools⟩
  | cons v rest ih =>
    have hcreate : rem_boxroot_create v st =
        (none, { st with log_count := st.log_count + 1 }) := by
      simp [rem_boxroot_create, alloc_slot, hpools, hsetup]
    have hunfold : run_creates (v :: rest) st =
        ((rem_boxroot_create v st).1 ::
          (run_creates rest (rem_boxroot_create v st).2).1,
         (run_creates rest (rem_boxroot_create v st).2).2) := rfl
    obtain ⟨ih1, ih2, ih3, ih4⟩ :=
      ih { st with log_count := st.log_count + 1 } hsetup hpools
    rw [hunfold, hcreate]
    refine ⟨?_, ?_, ih3, ih4⟩
    · show (none : Option Handle) ::
        (run_creates rest { st with log_count := st.log_count + 1 }).1 =
        List.replicate (v :: rest).length none
      rw [List.length_cons, List.replicate_succ, ih1]
    · show (run_creates rest { st with log_count := st.log_count + 1 }).2.log_count =
        st.log_count + (v :: rest).length
      rw [ih2, List.length_cons]
      show st.log_count + 1 + rest.length = st.log_count + (rest.length + 1)
      omega

/-- Claim C8 (amended): every rem_boxroot_create call made before setup
returns the null handle and emits the "boxroot is not setup" message
once per call — k pre-setup creates produce k messages, not one in
total. -/
theorem claim_C8_amended_pre_setup_create (orc : List Bool) (vs : List Val) :
    (run_creates vs (init orc)).1 = List.replicate vs.length none ∧
    (run_creates vs (init orc)).2.log_count = vs.length := by
  obtain ⟨h1, h2, -, -⟩ := pre_setup_creates vs (init orc) rfl rfl
  refine ⟨h1, ?_⟩
  rw [h2]
  show 0 + vs.length = vs.length
  omega

/-- Claim C8 counterexample: two creates before setup both return null
and the diagnostic is printed twice, not exactly once as claimed. -/
theorem claim_C8_counterexample :
    (run_creates [Val.imm 1, Val.imm 2] (init [])).1 = [none, none] ∧
    (run_creates [Val.imm 1, Val.imm 2] (init [])).2.log_count = 2 ∧
    (run_creates [Val.imm 1, Val.imm 2] (init [])).2.log_count ≠ 1 := by
  refine ⟨rfl, rfl, by decide⟩

/-- Frame facts of a create served by a non-full head pool: the rings,
flag, oracle, statistics and allocation cursor are untouched and the
pool's alloc_count rises by one. -/
theorem create_nonfull_head_facts (v : Val) (st : State) {p : Nat}
    {rest l₁ l₂ : List Nat} (hpools : st.pools = p :: rest)
    (hfl : FreeLists (st.heap p) l₁ l₂)
    (hnf : is_full_pool (st.heap p) = false) :
    (rem_boxroot_create v st).2.pools = st.pools ∧
    (rem_boxroot_create v st).2.full_pools = st.full_pools ∧
    (rem_boxroot_create v st).2.setup = st.setup ∧
    (rem_boxroot_create v st).2.oracle = st.oracle ∧
    (rem_boxroot_create v st).2.stats = st.stats ∧
    (rem_boxroot_create v st).2.next_id = st.next_id ∧
    ((rem_boxroot_create v st).2.heap p).hd.alloc_count =
      (st.heap p).hd.alloc_count + 1 := by
  obtain ⟨i, sta, hrun₂, hlt, hp₂, hfp₂, hnext₂, hsetup₂, horc₂, hfreed₂,
    hlog₂, hstats₂, hheap₂, halloc₂, hroots₂, hpinv₂, -⟩ :=
    alloc_slot_in_spec (is_young_block v) p st hfl hnf
  have hstep : alloc_slot (is_young_block v) st =
      alloc_slot_in (is_young_block v) p st := by
    simp [alloc_slot, hpools, hnf]
  have hrun : alloc_slot (is_young_block v) st = (some (p, i), sta) := by
    rw [hstep, hrun₂]
  have hcreate : rem_boxroot_create v st = (some (p, i),
      { sta with heap := Function.update sta.heap p (Pool.mk (sta.heap p).hd (Function.update (sta.heap p).roots i (Slot.full v))) }) := by
    simp [rem_boxroot_create, hrun]
  rw [hcreate]
  refine ⟨hp₂, hfp₂, hsetup₂, horc₂, hstats₂, hnext₂, ?_⟩
  show (Function.update sta.heap p (Pool.mk (sta.heap p).hd (Function.update (sta.heap p).roots i (Slot.full v))) p).hd.alloc_count = _
  rw [Function.update_same]
  exact halloc₂

set_option maxRecDepth 100000 in
/-- The state after j creates (1 ≤ j ≤ CAP) from a fresh setup with one
successful page allocation available and then an exhausted allocator:
one pool, filling up. -/
theorem creates_fill (j : Nat) (hj : 1 ≤ j) (hjc : j ≤ CAP) :
    (runOps (List.replicate j (Op.create (Val.imm 0))) (ready [true, false])).pools = [0] ∧
    (runOps (List.replicate j (Op.create (Val.imm 0))) (ready [true, false])).full_pools = [] ∧
    (runOps (List.replicate j (Op.create (Val.imm 0))) (ready [true, false])).setup = true ∧
    (runOps (List.replicate j (Op.create (Val.imm 0))) (ready [true, false])).oracle = [false] ∧
    (runOps (List.replicate j (Op.create (Val.imm 0))) (ready [true, false])).stats.ring_operations = 1 ∧
    ((runOps (List.replicate j (Op.create (Val.imm 0))) (ready [true, false])).heap 0).hd.alloc_count = (j : Int) := by
  induction j with
  | zero => omega
  | succ j ih =>
    rcases Nat.eq_or_lt_of_le hj with hj1 | hj2
    · -- base case: a single create
      rw [← hj1]
      refine ⟨by decide, by decide, by decide, by decide, by decide, by decide⟩
    · -- inductive step: head pool non-full, hot-path create
      have hj' : 1 ≤ j := by omega
      obtain ⟨ihp, ihf, ihs, iho, ihr, iha⟩ := ih hj' (by omega)
      have hinv := runOps_inv (List.replicate j (Op.create (Val.imm 0)))
        (ready [true, false]) (ready_inv _)
      have hmem0 : 0 ∈ owned (runOps (List.replicate j (Op.create (Val.imm 0)))
          (ready [true, false])) := by
        rw [owned, ihp, ihf]
        simp
      obtain ⟨l₁, l₂, hfl⟩ := hinv.pool_inv 0 hmem0
      have hnf : is_full_pool ((runOps (List.replicate j (Op.create (Val.imm 0)))
          (ready [true, false])).heap 0) = false := by
        rw [is_full_pool, iha]
        simp only [decide_eq_false_iff_not]
        intro hc
        rw [Int.ofNat_inj.symm.symm] at hc
        have : j = CAP := by exact_mod_cast hc
        omega
      obtain ⟨hc1, hc2, hc3, hc4, hc5, hc6, hc7⟩ :=
        create_nonfull_head_facts (Val.imm 0)
          (runOps (List.replicate j (Op.create (Val.imm 0))) (ready [true, false]))
          ihp hfl hnf
      have hsplit : runOps (List.replicate (j + 1) (Op.create (Val.imm 0)))
          (ready [true, false]) =
          (rem_boxroot_create (Val.imm 0)
            (runOps (List.replicate j (Op.create (Val.imm 0)))
              (ready [true, false]))).2 := by
        rw [List.replicate_succ']
        rw [runOps, List.foldl_append]
        rfl
      rw [hsplit]
      refine ⟨by rw [hc1, ihp], by rw [hc2, ihf], by rw [hc3, ihs],
        by rw [hc4, iho], by rw [hc5, ihr], ?_⟩
      rw [hc7, iha]
      push_cast
      ring

/-- The (CAP+1)-th create finds the head pool full, moves it to the
full-pool ring, and then fails to allocate a fresh pool: the non-full
ring is left empty while ring_operations stays positive. -/
theorem create_full_head_oom (v : Val) (st : State)
    (hpools : st.pools = [0]) (hfp : st.full_pools = [])
    (hsetup : st.setup = true)
    (hfull : is_full_pool (st.heap 0) = true)
    (horc : st.oracle = [false]) :
    (rem_boxroot_create v st).1 = none ∧
    (rem_boxroot_create v st).2.pools = [] ∧
    (rem_boxroot_create v st).2.full_pools = [0] ∧
    (rem_boxroot_create v st).2.setup = true ∧
    (rem_boxroot_create v st).2.stats.ring_operations =
      st.stats.ring_operations := by
  have hrun : rem_boxroot_create v st = (none,
      { st with
        pools := []
        full_pools := [0]
        oracle := []
        stats := { st.stats with
          live_pools := st.stats.live_pools + 1
          peak_pools := max st.stats.peak_pools (st.stats.live_pools + 1) } }) := by
    simp [rem_boxroot_create, alloc_slot, hpools, hfull, hsetup,
      find_available_pool, skip_full, hfp, ring_push_back, get_empty_pool, horc]
  rw [hrun]
  exact ⟨rfl, rfl, rfl, hsetup, rfl⟩

/-- The scan callback dereferences a null pointer (free_empty_pools
reads pools->hd.next with pools == NULL) whenever it runs with an empty
non-full ring but a positive ring-operation count. -/
theorem scanning_callback_crash (action : Val → Val) (minor : Bool)
    (st : State) (hsetup : st.setup = true) (hpools : st.pools = [])
    (hops : 0 < st.stats.ring_operations) :
    boxroot_used st = true ∧ scanning_callback action minor st = none := by
  have hused : boxroot_used st = true := by
    simp [boxroot_used, hops]
  refine ⟨hused, ?_⟩
  cases minor with
  | true =>
    have hbump : boxroot_used { st with stats := { st.stats with
        minor_collections := st.stats.minor_collections + 1 } } = true := by
      simp [boxroot_used, hops]
    rw [scanning_callback]
    rw [if_neg (by simp [hsetup])]
    rw [if_pos (by simpa using hbump)]
    rw [scan_roots]
    rw [free_empty_pools]
    simp [hpools]
  | false =>
    have hbump : boxroot_used { st with stats := { st.stats with
        major_collections := st.stats.major_collections + 1 } } = true := by
      simp [boxroot_used, hops]
    rw [scanning_callback]
    rw [if_neg (by simp [hsetup])]
    rw [if_pos (by simpa using hbump)]
    rw [scan_roots]
    rw [free_empty_pools]
    simp [hpools]

/-- runOps over a snoc splits into a run and a final step. -/
theorem runOps_snoc (l : List Op) (o : Op) (s : State) :
    runOps (l ++ [o]) s = step (runOps l s) o := by
  simp [runOps, List.foldl_append]

/-- A create step is the state component of rem_boxroot_create. -/
theorem step_create (s : State) (v : Val) :
    step s (Op.create v) = (rem_boxroot_create v s).2 := rfl

/-- The crash state is reachable: CAP+1 creates from a fresh setup whose
page allocator yields one pool and then fails. -/
theorem crash_state_reachable :
    (runOps (List.replicate (CAP + 1) (Op.create (Val.imm 0)))
        (ready [true, false])).setup = true ∧
    (runOps (List.replicate (CAP + 1) (Op.create (Val.imm 0)))
        (ready [true, false])).pools = [] ∧
    (runOps (List.replicate (CAP + 1) (Op.create (Val.imm 0)))
        (ready [true, false])).full_pools = [0] ∧
    0 < (runOps (List.replicate (CAP + 1) (Op.create (Val.imm 0)))
        (ready [true, false])).stats.ring_operations := by
  obtain ⟨ihp, ihf, ihs, iho, ihr, iha⟩ :=
    creates_fill CAP (by rw [CAP_eq]; omega) le_rfl
  have hfull : is_full_pool ((runOps (List.replicate CAP (Op.create (Val.imm 0)))
      (ready [true, false])).heap 0) = true := by
    rw [is_full_pool, iha]
    simp
  obtain ⟨-, hc2, hc3, hc4, hc5⟩ :=
    create_full_head_oom (Val.imm 0)
      (runOps (List.replicate CAP (Op.create (Val.imm 0))) (ready [true, false]))
      ihp ihf ihs hfull iho
  have hsplit : runOps (List.replicate (CAP + 1) (Op.create (Val.imm 0)))
      (ready [true, false]) =
      (rem_boxroot_create (Val.imm 0)
        (runOps (List.replicate CAP (Op.create (Val.imm 0)))
          (ready [true, false]))).2 := by
    rw [List.replicate_succ', runOps_snoc, step_create]
  rw [hsplit]
  exact ⟨hc4, hc2, hc3, by rw [hc5, ihr]; omega⟩

/-- C10: free_empty_pools dereferences pools->hd.next without a null
check, so the scan callback crashes (models as none) on every state
where the non-full ring is empty but ring_operations > 0 and the engine
is in use; and such a state is reachable: starting from a fresh setup
whose page allocator yields exactly one pool, CAP+1 creates move the
lone pool to the full ring and fail to replace it, leaving the non-full
ring empty with ring_operations positive. -/
theorem claim_C10_scan_callback_not_total :
    (∀ (action : Val → Val) (minor : Bool) (st : State),
      st.setup = true → st.pools = [] → 0 < st.stats.ring_operations →
      boxroot_used st = true ∧ scanning_callback action minor st = none) ∧
    ((runOps (List.replicate (CAP + 1) (Op.create (Val.imm 0)))
        (ready [true, false])).setup = true ∧
     (runOps (List.replicate (CAP + 1) (Op.create (Val.imm 0)))
        (ready [true, false])).pools = [] ∧
     (runOps (List.replicate (CAP + 1) (Op.create (Val.imm 0)))
        (ready [true, false])).full_pools = [0] ∧
     0 < (runOps (List.replicate (CAP + 1) (Op.create (Val.imm 0)))
        (ready [true, false])).stats.ring_operations) := by
  constructor
  · intro action minor st hsetup hpools hops
    exact scanning_callback_crash action minor st hsetup hpools hops
  · exact crash_state_reachable

/-- Witness for C10: the universal crash statement applied to the
concrete state wcrash. -/
theorem claim_C10_scan_callback_not_total_witness :
    boxroot_used wcrash = true ∧
    scanning_callback (fun v => v) true wcrash = none :=
  claim_C10_scan_callback_not_total.1 (fun v => v) true wcrash
    (by decide) (by decide) (by decide)

theorem wpool_minor_freeLists : FreeLists wpool_minor [] [5] := by
  refine ⟨Chain.nil, Chain.cons ?_ Chain.nil, by simp, ?_, ?_, ?_⟩
  · show (if 5 = 5 then Slot.free Ptr.base else Slot.full (Val.imm 0)) =
      Slot.free Ptr.base
    rw [if_pos rfl]
  · intro i
    constructor
    · intro hi
      have h5 : i = 5 := by simpa using hi
      subst h5
      exact ⟨by decide, by decide⟩
    · rintro ⟨hi, hfree⟩
      by_cases h5 : i = 5
      · simp [h5]
      · have hfull : wpool_minor.roots i = Slot.full (Val.imm 0) := by
          simp [wpool_minor, h5]
        rw [hfull] at hfree
        simp [Slot.isFree] at hfree
  · show (CAP : Int) - 1 = (CAP : Int) - (([] ++ [5] : List Nat).length : Int)
    simp
  · intro j hj
    have h5 : 5 = j := by simpa using hj
    subst h5
    rfl

theorem wpool_full_freeLists : FreeLists wpool_full [] [] := by
  refine ⟨Chain.nil, Chain.nil, by simp, ?_, by simp [wpool_full], ?_⟩
  · intro i
    constructor
    · intro hi
      simp at hi
    · rintro ⟨-, hfree⟩
      have hfull : wpool_full.roots i = Slot.full (Val.imm 0) := rfl
      rw [hfull] at hfree
      simp [Slot.isFree] at hfree
  · intro j hj
    simp at hj

theorem wstate_minor_inv : Inv wstate_minor := by
  refine ⟨by simp [owned, wstate_minor], ?_, ?_⟩
  · intro p hp
    have hp0 : p = 0 := by simpa [owned, wstate_minor] using hp
    subst hp0
    show 0 < 1
    omega
  · intro p hp
    have hp0 : p = 0 := by simpa [owned, wstate_minor] using hp
    subst hp0
    exact ⟨[], [5], wpool_minor_freeLists⟩

/-- Witness for C1: the minor scan of wpool_minor performs no visit and
splices its one-cell minor list onto the (empty) major list. -/
theorem claim_C1_minor_scan_visits_nothing_witness :
    (scan_pool (fun v => v) true wpool_minor).2.1 = [] ∧
    (scan_pool (fun v => v) true wpool_minor).2.2.1 = 0 ∧
    (scan_pool (fun v => v) true wpool_minor).2.2.2 = 0 ∧
    (([5] : List Nat) = [] →
      (scan_pool (fun v => v) true wpool_minor).1 = wpool_minor) ∧
    (([5] : List Nat) ≠ [] →
      ((scan_pool (fun v => v) true wpool_minor).1).hd.minor_free_list =
        empty_free_list ∧
      Chain ((scan_pool (fun v => v) true wpool_minor).1).roots
        ((scan_pool (fun v => v) true wpool_minor).1).hd.major_free_list
        ([5] ++ []) ∧
      ((scan_pool (fun v => v) true wpool_minor).1).hd.alloc_count =
        wpool_minor.hd.alloc_count) :=
  claim_C1_minor_scan_visits_nothing (fun v => v) wpool_minor
    wpool_minor_freeLists

/-- Witness for C2: the major scan of the all-full pool wpool_full
visits each of its CAP slots exactly once. -/
theorem claim_C2_major_scan_visits_full_slots_witness :
    (scan_pool (fun v => v) false wpool_full).2.1 = fulls wpool_full.roots 0 CAP ∧
    (((scan_pool (fun v => v) false wpool_full).2.1).length : Int) =
      wpool_full.hd.alloc_count ∧
    (∀ i ∈ (scan_pool (fun v => v) false wpool_full).2.1,
      i < CAP ∧ (wpool_full.roots i).isFull = true) ∧
    (∀ i, i < CAP → (wpool_full.roots i).isFull = true →
      i ∈ (scan_pool (fun v => v) false wpool_full).2.1) ∧
    (∀ i ∈ (scan_pool (fun v => v) false wpool_full).2.1,
      (wpool_full.roots i).isFree = false) ∧
    (scan_pool (fun v => v) false wpool_full).2.1.Nodup ∧
    (((scan_pool (fun v => v) false wpool_full).2.2.1 : Int) =
      wpool_full.hd.alloc_count) ∧
    (scan_pool (fun v => v) false wpool_full).2.2.2 ≤ CAP ∧
    ((fulls wpool_full.roots 0
        ((scan_pool (fun v => v) false wpool_full).2.2.2)).length : Int) =
      wpool_full.hd.alloc_count ∧
    (∀ m, m < (scan_pool (fun v => v) false wpool_full).2.2.2 →
      ((fulls wpool_full.roots 0 m).length : Int) < wpool_full.hd.alloc_count) :=
  claim_C2_major_scan_visits_full_slots (fun v => v) wpool_full
    wpool_full_freeLists

/-- Witness for C3: creating a nursery payload in wstate_minor takes the
head of the minor free list (cell 5) without a remembered-set add. -/
theorem claim_C3_create_generational_choice_witness :
    ∃ i st', rem_boxroot_create (Val.young 7) wstate_minor = (some (0, i), st') ∧
      (is_young_block (Val.young 7) = true →
        (([5] : List Nat) ≠ [] →
          ([5] : List Nat).head? = some i ∧ st'.rem_set = wstate_minor.rem_set) ∧
        (([5] : List Nat) = [] →
          ([] : List Nat).head? = some i ∧
          st'.rem_set = wstate_minor.rem_set ++ [(0, i)])) ∧
      (is_young_block (Val.young 7) = false →
        st'.rem_set = wstate_minor.rem_set ∧
        (([] : List Nat) ≠ [] → ([] : List Nat).head? = some i) ∧
        (([] : List Nat) = [] → ([5] : List Nat).head? = some i)) :=
  claim_C3_create_generational_choice (Val.young 7) wstate_minor rfl
    wpool_minor_freeLists (by decide)

/-- Witness for C4: two modifies on handle (0,0) of a fresh engine leave
the handle unchanged and the cell holding the last payload. -/
theorem claim_C4_modify_handle_stable_witness :
    (run_modifies [Val.imm 1, Val.imm 2] (ready []) (0, 0)).2 = (0, 0) ∧
    ((run_modifies [Val.imm 1, Val.imm 2] (ready []) (0, 0)).1.heap 0).roots 0 =
      Slot.full (Val.imm 2) :=
  ⟨(claim_C4_modify_handle_stable [Val.imm 1, Val.imm 2] (ready []) (0, 0)).1,
   (claim_C4_modify_handle_stable [Val.imm 1, Val.imm 2]
      (ready []) (0, 0)).2.2.2.2.2.2 (Val.imm 2) rfl⟩

set_option maxRecDepth 40000 in
/-- Witness for C5: after one create from a fresh engine, pool 0 is
owned and satisfies the free-list integrity properties. -/
theorem claim_C5_free_list_integrity_witness :
    ∃ l₁ l₂,
      Chain ((runOps [Op.create (Val.imm 0)] (ready [])).heap 0).roots
        ((runOps [Op.create (Val.imm 0)] (ready [])).heap 0).hd.major_free_list l₁ ∧
      Chain ((runOps [Op.create (Val.imm 0)] (ready [])).heap 0).roots
        ((runOps [Op.create (Val.imm 0)] (ready [])).heap 0).hd.minor_free_list l₂ ∧
      (((l₁ ++ l₂).length : Int) =
        (CAP : Int) - ((runOps [Op.create (Val.imm 0)] (ready [])).heap 0).hd.alloc_count) ∧
      (∀ i ∈ l₁ ++ l₂,
        i < CAP ∧
          (((runOps [Op.create (Val.imm 0)] (ready [])).heap 0).roots i).isFree = true) ∧
      ((runOps [Op.create (Val.imm 0)] (ready [])).heap 0).hd.major_free_list ≠ Ptr.null ∧
      ((runOps [Op.create (Val.imm 0)] (ready [])).heap 0).hd.minor_free_list ≠ Ptr.null ∧
      (l₁ = [] →
        ((runOps [Op.create (Val.imm 0)] (ready [])).heap 0).hd.major_free_list = Ptr.base) ∧
      (l₂ = [] →
        ((runOps [Op.create (Val.imm 0)] (ready [])).heap 0).hd.minor_free_list = Ptr.base) :=
  claim_C5_free_list_integrity [] [Op.create (Val.imm 0)] (by decide) 0 (by decide)

set_option maxRecDepth 40000 in
/-- Witness for C6 (amended): an immediate create/delete round trip on
wstate_minor (whose head pool has a free slot, so no pool is allocated)
restores alloc_count and live_pools. -/
theorem claim_C6_amended_round_trip_witness :
    (∀ q ∈ owned wstate_minor,
      ((run_deletes (run_creates [Val.imm 0] wstate_minor).1
          (run_creates [Val.imm 0] wstate_minor).2).heap q).hd.alloc_count =
        (wstate_minor.heap q).hd.alloc_count) ∧
    ((run_creates [Val.imm 0] wstate_minor).2.stats.live_pools =
        wstate_minor.stats.live_pools →
      (run_deletes (run_creates [Val.imm 0] wstate_minor).1
          (run_creates [Val.imm 0] wstate_minor).2).stats.live_pools =
        wstate_minor.stats.live_pools) :=
  claim_C6_amended_round_trip wstate_minor wstate_minor_inv [Val.imm 0]
    (by decide)

/-- Witness for C7: tearing down wstate_rings (pool 1 in the non-full
ring, pool 0 in the full ring) frees pool 1 only; pool 0 is never
freed. -/
theorem claim_C7_teardown_skips_full_ring_witness :
    (rem_boxroot_teardown wstate_rings).pools = [] ∧
    (rem_boxroot_teardown wstate_rings).freed =
      wstate_rings.freed ++ wstate_rings.pools ∧
    (rem_boxroot_teardown wstate_rings).full_pools = wstate_rings.full_pools ∧
    (∀ q, q ∈ wstate_rings.full_pools → q ∉ wstate_rings.freed →
      q ∉ wstate_rings.pools → q ∉ (rem_boxroot_teardown wstate_rings).freed) ∧
    (∀ st₂ : State, st₂.setup = false → rem_boxroot_teardown st₂ = st₂) :=
  claim_C7_teardown_skips_full_ring wstate_rings rfl

end RemBoxroot

namespace BitmapBoxroot

open RemBoxroot (Val is_young_block)

theorem mark_old_spec (l : List Nat) (heap : Nat → Chunk) :
    (∀ c ∈ l, (mark_old l heap c).is_young = false) ∧
    (∀ c, c ∉ l → mark_old l heap c = heap c) := by
  induction l generalizing heap with
  | nil => exact ⟨fun c hc => absurd hc (List.not_mem_nil c), fun c _ => rfl⟩
  | cons a rest ih =>
    constructor
    · intro c hc
      by_cases hcr : c ∈ rest
      · exact (ih _).1 c hcr
      · have hca : c = a := by
          rcases List.mem_cons.mp hc with h | h
          · exact h
          · exact absurd h hcr
        subst hca
        show (mark_old rest (Function.update heap c (Chunk.mk (heap c).slot false (heap c).free)) c).is_young = false
        rw [(ih _).2 c hcr, Function.update_same]
    · intro c hc
      have hca : c ≠ a := fun he => hc (he ▸ List.mem_cons_self a rest)
      have hcr : c ∉ rest := fun h => hc (List.mem_cons_of_mem _ h)
      show mark_old rest (Function.update heap a (Chunk.mk (heap a).slot false (heap a).free)) c = heap c
      rw [(ih _).2 c hcr, Function.update_noteq hca]

/-- Claim C9, code-side evaluation.  First conjunct: the young-ring
invariant is violated — creating a root for a mature pointer from a
fresh setup leaves its chunk in the young ring although the chunk's only
payload is not a nursery pointer, refuting the young-ring assertion of
validate_all_rings (the is_young_block(init) test of
bitmap_boxroot_create is commented out).  Second conjunct: the other
half of the claim holds — after a minor collection the young ring is
empty and every chunk that was in it survives in the old ring with
is_young cleared. -/
theorem claim_C9_young_ring_misclassification :
    ((bitmap_boxroot_create (Val.old 7) bsetup).2.young = [0] ∧
     (bitmap_boxroot_create (Val.old 7) bsetup).2.old = [] ∧
     chunk_allocated ((bitmap_boxroot_create (Val.old 7) bsetup).2.heap 0) = [0] ∧
     ((bitmap_boxroot_create (Val.old 7) bsetup).2.heap 0).slot 0 = Val.old 7 ∧
     is_young_block (Val.old 7) = false ∧
     validate_young_ring (bitmap_boxroot_create (Val.old 7) bsetup).2 = false) ∧
    (∀ (action : Val → Val) (st : BState),
      (scan_roots action true st).young = [] ∧
      (∀ c ∈ st.young, c ∈ (scan_roots action true st).old ∧
        ((scan_roots action true st).heap c).is_young = false)) := by
  constructor
  · exact ⟨by decide, by decide, by decide, by decide, by decide, by decide⟩
  · intro action st
    cases hy : st.young with
    | nil =>
      have hrun : scan_roots action true st =
          { st with heap := scan_ring action (fun v => is_young_block v) st.young st.heap } := by
        simp [scan_roots, ENABLE_BOXROOT_GENERATIONAL, hy]
      rw [hrun]
      exact ⟨hy, fun c hc => absurd (hy ▸ hc) (List.not_mem_nil c)⟩
    | cons a rest =>
      have hrun : scan_roots action true st =
          BState.mk (mark_old (a :: rest) (scan_ring action (fun v => is_young_block v) (a :: rest) st.heap)) [] (ring_push_back (a :: rest) st.old) st.freed st.next_id st.stats := by
        simp [scan_roots, ENABLE_BOXROOT_GENERATIONAL, hy]
      rw [hrun]
      refine ⟨rfl, ?_⟩
      intro c hc
      constructor
      · show c ∈ ring_push_back (a :: rest) st.old
        rw [ring_push_back]
        by_cases hold : st.old.isEmpty
        · rw [if_pos hold]
          exact hc
        · rw [if_neg hold]
          exact List.mem_append_right st.old hc
      · show (mark_old (a :: rest) (scan_ring action (fun v => is_young_block v) (a :: rest) st.heap) c).is_young = false
        exact (mark_old_spec (a :: rest) _).1 c hc

/-- Witness for C9: the second conjunct applied after the misclassified
create — a minor collection empties the young ring and demotes chunk 0
into the old ring. -/
theorem claim_C9_young_ring_misclassification_witness :
    (scan_roots (fun v => v) true (bitmap_boxroot_create (Val.old 7) bsetup).2).young = [] ∧
    0 ∈ (scan_roots (fun v => v) true (bitmap_boxroot_create (Val.old 7) bsetup).2).old ∧
    ((scan_roots (fun v => v) true (bitmap_boxroot_create (Val.old 7) bsetup).2).heap 0).is_young = false :=
  ⟨(claim_C9_young_ring_misclassification.2 (fun v => v)
      (bitmap_boxroot_create (Val.old 7) bsetup).2).1,
   ((claim_C9_young_ring_misclassification.2 (fun v => v)
      (bitmap_boxroot_create (Val.old 7) bsetup).2).2 0 (by decide)).1,
   ((claim_C9_young_ring_misclassification.2 (fun v => v)
      (bitmap_boxroot_create (Val.old 7) bsetup).2).2 0 (by decide)).2⟩

end BitmapBoxroot
